import Mathlib

/-!
# simple-mcp: markdown-fenced JSON parser and error-code helpers

A shallow embedding of

* `internal/repository/langchain/shared/parser.go`
  (`CleanMarkdownJSONParser.cleanMarkdown`, `CleanMarkdownJSONParser.Parse`),
* `pkg/errors/errors.go` (`New`, `Wrap`, `GetCode`, `HasCode`),
* `internal/constants/errors.go` (the `ErrorCode` constants),
* `pkg/utils/id.go` (`GenerateID`, `FormatID`, `GenerateRandomID`) with the
  constant `IDAlphabet` of `pkg/constants/validation.go`.

Go strings are modelled as lists of Unicode code points (`List Char`), i.e. a
Go string holding valid UTF-8 is identified with the sequence of runes it
encodes.  The library routines the code calls (`strings.TrimSpace`,
`strings.Index`, `regexp.FindStringSubmatch`, `errors.As`,
`base64.URLEncoding.EncodeToString`) are modelled from the Go standard-library
documentation.
-/

namespace SimpleMCP

/-! ## Characters and strings -/

/-- The backtick character (U+0060). -/
def backtick : Char := Char.ofNat 96

/-- The opening brace character (U+007B). -/
def lbrace : Char := Char.ofNat 123

/-- The closing brace character (U+007D). -/
def rbrace : Char := Char.ofNat 125

/-- The three-backtick marker that opens and closes a fenced block. -/
def fence : List Char := [backtick, backtick, backtick]

/-- The literal language tag the regular expression knows about. -/
def jsonTag : List Char := ['j', 's', 'o', 'n']

/-- Go `unicode.IsSpace`: the Latin-1 spaces tab, LF, VT, FF, CR, space, NEL
(U+0085), NBSP (U+00A0), and the code points of category Z with property
`Pattern_White_Space`/`White_Space` (U+1680, U+2000 to U+200A, U+2028, U+2029,
U+202F, U+205F, U+3000). -/
def isSpace (c : Char) : Bool :=
  let n := c.toNat
  n == 9 || n == 10 || n == 11 || n == 12 || n == 13 || n == 32 ||
  n == 0x85 || n == 0xA0 || n == 0x1680 || (0x2000 ≤ n && n ≤ 0x200A) ||
  n == 0x2028 || n == 0x2029 || n == 0x202F || n == 0x205F || n == 0x3000

/-- The class `\s` of Go (RE2) regular expressions: `[\t\n\f\r ]`. -/
def isReSpace (c : Char) : Bool :=
  let n := c.toNat
  n == 9 || n == 10 || n == 12 || n == 13 || n == 32

/-- The class `.` under the flag `(?s)`: every character, newline included. -/
def isAny (_ : Char) : Bool := true

/-- Go `strings.TrimSpace`: drop the leading and the trailing white space
(as defined by `unicode.IsSpace`). -/
def TrimSpace (s : List Char) : List Char :=
  (s.dropWhile isSpace).rdropWhile isSpace

/-- Go `strings.Index(s, sep)`: the index of the first occurrence of `sep` in
`s`; `none` stands for the result `-1`. -/
def Index : List Char → List Char → Option Nat
  | [], sep => if sep.isEmpty then some 0 else none
  | c :: t, sep =>
    if sep.isPrefixOf (c :: t) then some 0 else (Index t sep).map (· + 1)

/-! ## Regular expressions with leftmost-first (backtracking) semantics -/

/-- The fragment of Go regular-expression syntax used by the parser. -/
inductive Regex where
  /-- A literal string. -/
  | lit (s : List Char)
  /-- Greedy option `r?`: prefers to match `r`. -/
  | opt (r : Regex)
  /-- Greedy repetition `c*` of a character class. -/
  | star (p : Char → Bool)
  /-- Non-greedy repetition `c*?` of a character class. -/
  | starLazy (p : Char → Bool)
  /-- Capturing group (the expression of the parser has exactly one). -/
  | group (r : Regex)
  /-- Concatenation. -/
  | seq (r₁ r₂ : Regex)

/-- The remainders left by a greedy `c*`, in the order a backtracking matcher
tries them: longest run first. -/
def starRests (p : Char → Bool) : List Char → List (List Char)
  | [] => [[]]
  | c :: t => if p c then starRests p t ++ [c :: t] else [c :: t]

/-- The remainders left by a non-greedy `c*?`, in the order a backtracking
matcher tries them: shortest run first. -/
def starLazyRests (p : Char → Bool) : List Char → List (List Char)
  | [] => [[]]
  | c :: t => (c :: t) :: (if p c then starLazyRests p t else [])

/-- All the ways `r` matches a prefix of `s`, in the priority order of a
backtracking matcher.  Each entry is the unconsumed remainder of the input
together with the text of the capturing group, if the group took part. -/
def matchRe : Regex → List Char → List (List Char × Option (List Char))
  | .lit l, s => if l.isPrefixOf s then [(s.drop l.length, none)] else []
  | .opt r, s => matchRe r s ++ [(s, none)]
  | .star p, s => (starRests p s).map (fun rest => (rest, none))
  | .starLazy p, s => (starLazyRests p s).map (fun rest => (rest, none))
  | .group r, s =>
    (matchRe r s).map (fun m => (m.1, some (s.take (s.length - m.1.length))))
  | .seq r₁ r₂, s =>
    (matchRe r₁ s).flatMap (fun m₁ =>
      (matchRe r₂ m₁.1).map (fun m₂ => (m₂.1, m₂.2.orElse (fun _ => m₁.2))))

/-- The preferred match of `r` anchored at the start of `s`, as the slice Go
returns: the whole match followed by the text of group 1; `[]` (Go `nil`)
when `r` does not match here. -/
def submatchAt (r : Regex) (s : List Char) : List (List Char) :=
  match (matchRe r s).head? with
  | some m => [s.take (s.length - m.1.length), m.2.getD []]
  | none => []

/-- Go `(*Regexp).FindStringSubmatch`: the leftmost match, and among the
matches starting there the one a backtracking search finds first. -/
def FindStringSubmatch (r : Regex) : List Char → List (List Char)
  | [] => submatchAt r []
  | c :: t =>
    match submatchAt r (c :: t) with
    | [] => FindStringSubmatch r t
    | m => m

/-- The compiled expression "(?s)```(?:json)?\\s*(.*?)\\s*```" of
`cleanMarkdown`. -/
def markdownCodeBlockRegex : Regex :=
  .seq (.lit fence) <| .seq (.opt (.lit jsonTag)) <| .seq (.star isReSpace) <|
  .seq (.group (.starLazy isAny)) <| .seq (.star isReSpace) (.lit fence)

/-! ## `cleanMarkdown` -/

/-- The loop `for i := startIdx; i < len(content); i++` of `cleanMarkdown`, run
over the part of the content that starts at index `i`, with the current
`braceCount`.  It yields the index `i` at which the loop returns, or `none`
when the loop runs to the end of the content. -/
def braceLoop : List Char → Nat → Int → Option Nat
  | [], _, _ => none
  | c :: t, i, braceCount =>
    if c = lbrace then braceLoop t (i + 1) (braceCount + 1)
    else if c = rbrace then
      if braceCount - 1 = 0 then some i else braceLoop t (i + 1) (braceCount - 1)
    else braceLoop t (i + 1) braceCount

/-- The Go slice expression `s[lo:hi]`. -/
def slice (s : List Char) (lo hi : Nat) : List Char :=
  (s.take hi).drop lo

/-- The method `CleanMarkdownJSONParser.cleanMarkdown`. -/
def cleanMarkdown (content : List Char) : List Char :=
  match FindStringSubmatch markdownCodeBlockRegex content with
  | _ :: m₁ :: _ => TrimSpace m₁
  | _ =>
    match Index content [lbrace] with
    | some startIdx =>
      match braceLoop (content.drop startIdx) startIdx 0 with
      | some i => TrimSpace (slice content startIdx (i + 1))
      | none => TrimSpace content
    | none => TrimSpace content

/-! ## `Parse` -/

/-- The type `schema.Message` of the eino library, as far as the parser
touches it: the three fields `Parse` copies, and `Rest` for all the fields it
leaves at their zero value in the cleaned message. -/
structure Message (ToolCall Other : Type) where
  /-- The field `Role` (a string type). -/
  Role : String
  /-- The field `Content`. -/
  Content : List Char
  /-- The field `ToolCalls`. -/
  ToolCalls : List ToolCall
  /-- All the other fields. -/
  Rest : Other

/-- The method `CleanMarkdownJSONParser.Parse`.  `baseParser` is the method
`Parse` of the field `p.baseParser`; a Go result `(T, error)` is a pair whose
second component is `none` for the nil error; `none` as message is the nil
pointer; `default` is the zero value of a Go type. -/
def Parse {Ctx T E ToolCall Other : Type} [Inhabited T] [Inhabited Other]
    (baseParser : Ctx → Message ToolCall Other → T × Option E)
    (ctx : Ctx) (msg : Option (Message ToolCall Other)) : T × Option E :=
  match msg with
  | none => (default, none)
  | some m =>
    let content := cleanMarkdown m.Content
    let cleanedMsg : Message ToolCall Other :=
      { Role := m.Role, Content := content, ToolCalls := m.ToolCalls, Rest := default }
    baseParser ctx cleanedMsg

/-- A small base parser for the examples, for the target shape with the one
string field `answer`: it decodes a document made of the opening brace, the
key "answer", a colon, a blank, a string literal without escapes and the
closing brace, and fails on every other document, the empty one included, as
a JSON decoder does. -/
def answerParser (_ : Unit) (m : Message Unit Unit) : List Char × Option String :=
  let pre := "\x7b\"answer\": \"".toList
  let suf := "\"\x7d".toList
  let mid := (m.Content.drop pre.length).take (m.Content.length - pre.length - suf.length)
  if pre.isPrefixOf m.Content && suf.isSuffixOf m.Content &&
      decide (pre.length + suf.length ≤ m.Content.length) &&
      mid.all (fun c => c != Char.ofNat 34 && c != Char.ofNat 92) then
    (mid, none)
  else
    ([], some "failed to unmarshal content")

/-- A base parser that returns the content it is handed, with a nil error: it
shows which candidate reaches the base parser. -/
def echoParser (_ : Unit) (m : Message Unit Unit) : List Char × Option String :=
  (m.Content, none)

/-! ## Error codes and `CustomError` -/

/-- The type `ErrorCode` (a string type). -/
abbrev ErrorCode := String

/-- The constant `UnknownError`. -/
def UnknownError : ErrorCode := "0000"

/-- The constant `InvalidParameter`. -/
def InvalidParameter : ErrorCode := "0400"

/-- The constant `NotFound`. -/
def NotFound : ErrorCode := "0404"

/-- The constant `ConstraintError`. -/
def ConstraintError : ErrorCode := "0409"

/-- The constant `InternalError`. -/
def InternalError : ErrorCode := "0500"

/-- The constant `DatabaseError`. -/
def DatabaseError : ErrorCode := "0500"

/-- The struct `CustomError`. -/
structure CustomError where
  /-- The 4-digit code. -/
  Code : ErrorCode
  /-- The message. -/
  Message : String
deriving DecidableEq

/-- The method `(*CustomError).Error`, on a pointer that is not nil. -/
def CustomError.Error (e : CustomError) : String := e.Message

/-- The non-nil values of the Go interface `error`.  The nil interface value is
`none` in `Option GoError`.  A message `none` stands for an error whose method
`Error` panics.

* `custom p`: a value of type `*CustomError`; `p = none` is the interface
  that holds the nil pointer (it is not the nil interface).
* `plain`: an error of another type with neither `Unwrap` nor an `As` method
  (such as one of `errors.New`).
* `wrap`: an error of another type with `Unwrap() error` and no `As` method
  (such as one of `fmt.Errorf` with one `%w`).
* `join`: an error of another type with `Unwrap() []error` and no `As`
  method (such as one of `errors.Join`).
* `withAs`: an error of another type with a method `As(any) bool`; `answer`
  is what that method does on the target of `errors.As(err, &customErr)`:
  `none` when it returns false, `some p` when it returns true and leaves the
  pointer `p` in the target (`p = none`: the nil pointer); `unwrap` lists the
  errors it wraps (empty without `Unwrap`). -/
inductive GoError where
  /-- A value of type `*CustomError`. -/
  | custom (p : Option CustomError)
  /-- No `Unwrap`, no `As`. -/
  | plain (msg : Option String)
  /-- Wraps one error. -/
  | wrap (msg : Option String) (inner : GoError)
  /-- Wraps several errors. -/
  | join (msg : Option String) (errs : List GoError)
  /-- Has a method `As(any) bool`. -/
  | withAs (msg : Option String) (answer : Option (Option CustomError)) (unwrap : List GoError)

/-- The call `err.Error()`; `none` is a run-time panic.  On the nil
`*CustomError` the method reads `e.Message` through the nil pointer. -/
def GoError.Error : GoError → Option String
  | .custom p => p.map CustomError.Error
  | .plain msg => msg
  | .wrap msg _ => msg
  | .join msg _ => msg
  | .withAs msg _ _ => msg

mutual
/-- Go `errors.As(err, &customErr)` for a non-nil `err`: `none` when it
returns false, `some p` when it returns true with `customErr = p`.  It takes
the first error of the tree of `err`, searched depth first through `Unwrap`,
that is a `*CustomError` (nil pointer or not) or whose method `As` answers
true. -/
def asCustom : GoError → Option (Option CustomError)
  | .custom p => some p
  | .plain _ => none
  | .wrap _ inner => asCustom inner
  | .join _ errs => asCustomList errs
  | .withAs _ answer unwrap =>
    match answer with
    | some p => some p
    | none => asCustomList unwrap
/-- The loop of `errors.As` over the errors of `Unwrap() []error`. -/
def asCustomList : List GoError → Option (Option CustomError)
  | [] => none
  | e :: es =>
    match asCustom e with
    | some p => some p
    | none => asCustomList es
end

/-- The function `New`; `none` is a run-time panic (of `err.Error()`). -/
def New (code : ErrorCode) (message : String) (err : Option GoError) : Option CustomError :=
  match err with
  | none => some { Code := code, Message := message }
  | some e =>
    match e.Error with
    | some s => some { Code := code, Message := message ++ ": " ++ s }
    | none => none

/-- The branch of `Wrap` taken when no usable code is passed: the code of the
`CustomError` found by `errors.As`, else `InternalError`; `none` is the panic
of `customErr.Code` on a nil pointer. -/
def preservedCode (e : GoError) : Option ErrorCode :=
  match asCustom e with
  | some (some customErr) => some customErr.Code
  | some none => none
  | none => some InternalError

/-- The function `Wrap`; the variadic `code` is a list.  The result `none` is
a run-time panic, `some none` is the returned nil error. -/
def Wrap (err : Option GoError) (message : String) (code : List ErrorCode) :
    Option (Option GoError) :=
  match err with
  | none => some none
  | some e =>
    let finalCode : Option ErrorCode :=
      match code with
      | c :: _ => if c ≠ "" then some c else preservedCode e
      | [] => preservedCode e
    match finalCode with
    | none => none
    | some fc =>
      match e.Error with
      | some s => some (some (.custom (some { Code := fc, Message := message ++ ": " ++ s })))
      | none => none

/-- The function `GetCode`; `none` is the panic of `customErr.Code` on a nil
pointer. -/
def GetCode (err : Option GoError) : Option ErrorCode :=
  match err with
  | none => some UnknownError
  | some e =>
    match asCustom e with
    | some (some customErr) => some customErr.Code
    | some none => none
    | none => some UnknownError

/-- The function `HasCode`; `none` is the panic of `GetCode`. -/
def HasCode (err : Option GoError) (code : ErrorCode) : Option Bool :=
  (GetCode err).map (· == code)

/-! ## ID helpers (`pkg/utils/id.go`) -/

/-- The constant `IDAlphabet`. -/
def IDAlphabet : List Char := "0123456789abcdefghijklmnopqrstuvwxyz".toList

/-- The conversion `uint64(v)` of an `int64`: its 64 bits read as unsigned. -/
def toUint64 (v : Int) : Nat := (v % 2 ^ 64).toNat

/-- The value `x` of `FormatID`,
`uint64((timestamp << 13) ^ (timestamp >> 7) ^ counter)`: the left shift drops
the bits beyond 64, the right shift of a signed value is arithmetic. -/
def mixID (timestamp counter : Int) : Nat :=
  (((toUint64 timestamp <<< 13) % 2 ^ 64) ^^^ toUint64 (timestamp >>> 7)) ^^^ toUint64 counter

/-- The loop `for x > 0` of `FormatID`: `i` is the index into `buf`, `acc` is
`buf[i:]`.  The result is `none` when the loop would write at `buf[-1]`, a
run-time panic. -/
def formatLoop : Nat → Nat → List Char → Option (List Char)
  | 0, x, acc => if x > 0 then none else some acc
  | i + 1, x, acc =>
    if x > 0 then
      formatLoop i (x / 36)
        (IDAlphabet.get ⟨x % 36, Nat.mod_lt x (by decide)⟩ :: acc)
    else some acc

/-- The function `FormatID`; `buf` has 32 bytes. -/
def FormatID (timestamp counter : Int) : Option (List Char) :=
  formatLoop 32 (mixID timestamp counter) []

/-- The function `GenerateID`; `now` is the value of `time.Now().UnixNano()`. -/
def GenerateID (now counter : Int) : Option (List Char) :=
  FormatID now counter

/-- The alphabet of Go `base64.URLEncoding`. -/
def encodeURL : List Char :=
  "ABCDEFGHIJKLMNOPQRSTUVWXYZabcdefghijklmnopqrstuvwxyz0123456789-_".toList

/-- The padding character of Go `base64.URLEncoding` (the equals sign). -/
def padChar : Char := Char.ofNat 61

/-- The character `enc.encode[val>>shift&0x3F]`. -/
def encodeAt (val shift : Nat) : Char :=
  encodeURL.get ⟨(val >>> shift) &&& 0x3F, Nat.lt_succ_of_le Nat.and_le_right⟩

/-- Go `base64.URLEncoding.EncodeToString`: three bytes give four characters;
a last block of two bytes gives three characters and one padding character, a
last block of one byte gives two characters and two padding characters. -/
def EncodeToString : List Nat → List Char
  | b₀ :: b₁ :: b₂ :: rest =>
    let val := (b₀ <<< 16) ||| (b₁ <<< 8) ||| b₂
    encodeAt val 18 :: encodeAt val 12 :: encodeAt val 6 :: encodeAt val 0 ::
      EncodeToString rest
  | [b₀, b₁] =>
    let val := (b₀ <<< 16) ||| (b₁ <<< 8)
    [encodeAt val 18, encodeAt val 12, encodeAt val 6, padChar]
  | [b₀] =>
    let val := b₀ <<< 16
    [encodeAt val 18, encodeAt val 12, padChar, padChar]
  | [] => []

/-- The function `GenerateRandomID`.  `read` is the outcome of
`rand.Read(bytes)` on the buffer of `length` bytes: the bytes it filled in, or
its error.  The result is the Go pair `(string, error)`, or `none` when the
slice expression `[:length]` is out of range (a run-time panic). -/
def GenerateRandomID (length : Int) (read : Except String (List Nat)) :
    Option (List Char × Option String) :=
  if length ≤ 0 then
    some ([], some "length must be positive")
  else
    match read with
    | .error err => some ([], some ("failed to generate random bytes: " ++ err))
    | .ok bytes =>
      let encoded := EncodeToString bytes
      if length.toNat ≤ encoded.length then some (encoded.take length.toNat, none)
      else none

/-! ## `Parse` in memory -/

/-- A `schema.Message` struct as it lies in memory.  The slice field
`ToolCalls` is a reference to its backing array (`none` is the nil slice), so
a copy of the field shares the array with the original. -/
structure MessageCell (Other : Type) where
  /-- The field `Role`. -/
  Role : String
  /-- The field `Content`. -/
  Content : List Char
  /-- The backing array of the field `ToolCalls`. -/
  ToolCalls : Option Nat
  /-- All the other fields. -/
  Rest : Other

/-- The memory `Parse` and the base parser work on: the message structs (a
pointer to a message is an index into `cells`), the backing arrays of the
tool-call slices (a reference is an index into `arrays`), and `world`, all
the other state the base parser can reach. -/
structure Memory (ToolCall Other S : Type) where
  /-- The message structs. -/
  cells : List (MessageCell Other)
  /-- The backing arrays of the tool-call slices. -/
  arrays : List (List ToolCall)
  /-- Everything else. -/
  world : S

/-- The message seen through the pointer `a`: the fields of the struct, with
the current elements of its tool-call array. -/
def Memory.message {ToolCall Other S : Type} (mem : Memory ToolCall Other S) (a : Nat) :
    Option (Message ToolCall Other) :=
  (mem.cells[a]?).map fun c =>
    { Role := c.Role, Content := c.Content,
      ToolCalls :=
        match c.ToolCalls with
        | none => []
        | some r => (mem.arrays[r]?).getD [],
      Rest := c.Rest }

/-- The allocation `&schema.Message{...}`: a new struct at a new address; all
that was in memory stays as it is. -/
def Memory.alloc {ToolCall Other S : Type} (mem : Memory ToolCall Other S)
    (c : MessageCell Other) : Nat × Memory ToolCall Other S :=
  (mem.cells.length, { mem with cells := mem.cells ++ [c] })

/-- The method `CleanMarkdownJSONParser.Parse` on memory.  `msg` is a pointer
(`none`: nil); the base parser gets the context, the pointer to the cleaned
message and the whole memory, which it may read and change at will.  The
result is `none` only when `msg` points to no message of this memory. -/
def ParseM {Ctx T E S ToolCall Other : Type} [Inhabited T] [Inhabited Other]
    (baseParser : Ctx → Nat → Memory ToolCall Other S →
      (T × Option E) × Memory ToolCall Other S)
    (ctx : Ctx) (msg : Option Nat) (mem : Memory ToolCall Other S) :
    Option ((T × Option E) × Memory ToolCall Other S) :=
  match msg with
  | none => some ((default, none), mem)
  | some a =>
    match mem.cells[a]? with
    | none => none
    | some m =>
      let content := cleanMarkdown m.Content
      let cleanedMsg := mem.alloc
        { Role := m.Role, Content := content, ToolCalls := m.ToolCalls, Rest := default }
      some (baseParser ctx cleanedMsg.1 cleanedMsg.2)

/-- The fresh message `Parse` builds from the message `m`: the role and the
tool-call slice of `m`, the cleaned content, all other fields zero. -/
def cleanedCell {Other : Type} [Inhabited Other] (m : MessageCell Other) : MessageCell Other :=
  { Role := m.Role, Content := cleanMarkdown m.Content, ToolCalls := m.ToolCalls,
    Rest := default }

/-- A base parser that only reads the message it is handed and decodes it with
the function `f`. -/
def readOnlyParser {Ctx T E S ToolCall Other : Type} [Inhabited T]
    (f : Ctx → Message ToolCall Other → T × Option E)
    (ctx : Ctx) (p : Nat) (mem : Memory ToolCall Other S) :
    (T × Option E) × Memory ToolCall Other S :=
  (match mem.message p with
    | some x => f ctx x
    | none => (default, none), mem)

/-- A base parser that overwrites the tool calls of the message it is handed
before it answers. -/
def tamperParser (_ : Unit) (p : Nat) (mem : Memory String Unit Unit) :
    (List Char × Option String) × Memory String Unit Unit :=
  match mem.cells[p]? with
  | some c =>
    match c.ToolCalls with
    | some r => (([], none), { mem with arrays := mem.arrays.set r ["tampered"] })
    | none => (([], none), mem)
  | none => (([], none), mem)

/-- A memory with one message, whose tool calls lie in one backing array. -/
def sampleMemory : Memory String Unit Unit :=
  { cells := [⟨"assistant", "no json here".toList, some 0, ()⟩],
    arrays := [["get_weather"]],
    world := () }

/-! ## Auxiliary definitions used in the statements and proofs -/

/-- The closing part `\s*` followed by the marker. -/
def closeRe : Regex := .seq (.star isReSpace) (.lit fence)

/-- The capturing group `(.*?)` followed by the closing part. -/
def tailRe : Regex := .seq (.group (.starLazy isAny)) closeRe

/-- The part after the optional tag: `\s*(.*?)\s*` and the marker. -/
def bodyRe : Regex := .seq (.star isReSpace) tailRe

/-- The part after the opening marker. -/
def tagRe : Regex := .seq (.opt (.lit jsonTag)) bodyRe

/-- The matches of the closing part at `y`, tagged with the capture `o`. -/
def closeWith (o : Option (List Char)) (y : List Char) :
    List (List Char × Option (List Char)) :=
  if fence.isPrefixOf (y.dropWhile isReSpace) then
    [((y.dropWhile isReSpace).drop 3, o)] else []

/-- The number of characters the optional tag `(?:json)?` consumes. -/
def tagLen (r : List Char) : Nat := if jsonTag.isPrefixOf r then 4 else 0

/-- The content has a fenced block: its first marker, at index `p`, is
followed by another marker at an index of at least `p + 3`. -/
def hasFencedBlock (content : List Char) : Bool :=
  match Index content fence with
  | none => false
  | some p => (Index (content.drop (p + 3)) fence).isSome

/-- The number of opening braces minus the number of closing braces. -/
def braceDepth (l : List Char) : Int :=
  (l.count lbrace : Int) - (l.count rbrace : Int)

/-! ## Basic facts about the string primitives -/

theorem isSpace_of_isReSpace {c : Char} (h : isReSpace c = true) : isSpace c = true := by
  simp only [isReSpace, isSpace, Bool.or_eq_true, beq_iff_eq] at h ⊢
  rcases h with (((h | h) | h) | h) | h <;> simp [h]

theorem isReSpace_backtick : isReSpace backtick = false := by decide

theorem Index_nil_sep (s : List Char) : Index s [] = some 0 := by
  cases s <;> simp [Index]

theorem Index_cons (c : Char) (t sep : List Char) :
    Index (c :: t) sep =
      if sep.isPrefixOf (c :: t) then some 0 else (Index t sep).map (· + 1) := by
  simp [Index]

/-- `Index` finds nothing exactly when no suffix of the text starts with the
separator. -/
theorem Index_eq_none_iff (s sep : List Char) :
    Index s sep = none ↔ ∀ y, y <:+ s → sep.isPrefixOf y = false := by
  induction s with
  | nil =>
    constructor
    · intro h y hy
      have hy' : y = [] := List.eq_nil_of_suffix_nil hy
      subst hy'
      cases sep with
      | nil => simp [Index] at h
      | cons a l => rfl
    · intro h
      have := h [] (List.suffix_refl _)
      cases sep with
      | nil => simp at this
      | cons a l => simp [Index]
  | cons c t ih =>
    rw [Index_cons]
    constructor
    · intro h y hy
      by_cases hp : sep.isPrefixOf (c :: t) = true
      · simp [hp] at h
      · simp only [hp, Bool.false_eq_true, if_false, Option.map_eq_none'] at h
        rcases List.suffix_cons_iff.mp hy with rfl | hy'
        · exact Bool.eq_false_iff.mpr hp
        · exact (ih.mp h) y hy'
    · intro h
      have h0 := h (c :: t) (List.suffix_refl _)
      simp only [h0, Bool.false_eq_true, if_false, Option.map_eq_none']
      exact ih.mpr (fun y hy => h y (hy.trans (List.suffix_cons c t)))

theorem Index_none_of_suffix {s y sep : List Char} (h : Index s sep = none)
    (hy : y <:+ s) : Index y sep = none :=
  (Index_eq_none_iff y sep).mpr
    (fun z hz => (Index_eq_none_iff s sep).mp h z (hz.trans hy))

/-- What a successful `Index` says: the separator starts at the index found. -/
theorem Index_some_starts {s sep : List Char} {p : Nat} (h : Index s sep = some p) :
    sep.isPrefixOf (s.drop p) = true := by
  induction s generalizing p with
  | nil =>
    cases sep with
    | nil => simp
    | cons a l => simp [Index] at h
  | cons c t ih =>
    rw [Index_cons] at h
    by_cases hp : sep.isPrefixOf (c :: t) = true
    · simp only [hp, if_true, Option.some.injEq] at h
      subst h
      simpa using hp
    · simp only [hp, Bool.false_eq_true, if_false, Option.map_eq_some'] at h
      obtain ⟨p', hp', rfl⟩ := h
      simpa using ih hp'

/-! ## The pieces of the regular expression -/

theorem markdownCodeBlockRegex_eq : markdownCodeBlockRegex = .seq (.lit fence) tagRe := rfl

theorem fence_isPrefixOf_cons_of_isReSpace {c : Char} (t : List Char)
    (h : isReSpace c = true) : fence.isPrefixOf (c :: t) = false := by
  have hc : c ≠ backtick := by
    rintro rfl
    rw [isReSpace_backtick] at h
    exact Bool.noConfusion h
  simp [fence, List.isPrefixOf, hc, Ne.symm hc]

theorem matchRe_lit_map (l s : List Char) (o : Option (List Char)) :
    (matchRe (.lit l) s).map (fun m₂ => (m₂.1, m₂.2.orElse (fun _ => o))) =
      if l.isPrefixOf s then [(s.drop l.length, o)] else [] := by
  unfold matchRe
  split <;> rfl

/-- After the greedy `\s*` only the longest run can be followed by the
marker, so the closing part has at most one match. -/
theorem matchRe_closeRe (y : List Char) :
    matchRe closeRe y =
      if fence.isPrefixOf (y.dropWhile isReSpace) then
        [((y.dropWhile isReSpace).drop 3, none)] else [] := by
  induction y with
  | nil => simp [closeRe, matchRe, starRests, fence, List.isPrefixOf]
  | cons c t ih =>
    by_cases hc : isReSpace c = true
    · have h1 : matchRe closeRe (c :: t) = matchRe closeRe t := by
        simp only [closeRe, matchRe, starRests, hc, if_true, List.map_append, List.map_cons,
          List.map_nil, List.flatMap_append, List.flatMap_cons, List.flatMap_nil,
          fence_isPrefixOf_cons_of_isReSpace t hc, Bool.false_eq_true, if_false,
          List.append_nil]
      rw [h1, ih]
      simp [List.dropWhile_cons, hc]
    · have hc' : isReSpace c = false := Bool.eq_false_iff.mpr hc
      have h1 : matchRe closeRe (c :: t) =
          (matchRe (.lit fence) (c :: t)).map (fun m₂ => (m₂.1, m₂.2.orElse (fun _ => none))) := by
        simp only [closeRe, matchRe, starRests, hc', Bool.false_eq_true, if_false, List.map_cons,
          List.map_nil, List.flatMap_cons, List.flatMap_nil, List.append_nil]
      rw [h1, matchRe_lit_map]
      simp [List.dropWhile_cons, hc', fence]

theorem matchRe_seq (r₁ r₂ : Regex) (s : List Char) :
    matchRe (.seq r₁ r₂) s =
      (matchRe r₁ s).flatMap (fun m₁ =>
        (matchRe r₂ m₁.1).map (fun m₂ => (m₂.1, m₂.2.orElse (fun _ => m₁.2)))) := by
  simp only [matchRe]

theorem matchRe_group (r : Regex) (s : List Char) :
    matchRe (.group r) s =
      (matchRe r s).map (fun m => (m.1, some (s.take (s.length - m.1.length)))) := by
  simp only [matchRe]

theorem matchRe_starLazy (p : Char → Bool) (s : List Char) :
    matchRe (.starLazy p) s = (starLazyRests p s).map (fun rest => (rest, none)) := by
  simp only [matchRe]

theorem matchRe_star (p : Char → Bool) (s : List Char) :
    matchRe (.star p) s = (starRests p s).map (fun rest => (rest, none)) := by
  simp only [matchRe]

theorem matchRe_opt (r : Regex) (s : List Char) :
    matchRe (.opt r) s = matchRe r s ++ [(s, none)] := by
  simp only [matchRe]

theorem matchRe_lit (l s : List Char) :
    matchRe (.lit l) s = if l.isPrefixOf s then [(s.drop l.length, none)] else [] := by
  simp only [matchRe]

theorem orElse_none_eq (o : Option (List Char)) : (o.orElse fun _ => none) = o := by
  cases o <;> rfl

theorem map_orElse_none (l : List (List Char × Option (List Char))) :
    l.map (fun m₂ => (m₂.1, m₂.2.orElse (fun _ => none))) = l := by
  induction l with
  | nil => rfl
  | cons a l ih => simp [orElse_none_eq]

theorem matchRe_closeRe_map (o : Option (List Char)) (y : List Char) :
    (matchRe closeRe y).map (fun m₂ => (m₂.1, m₂.2.orElse (fun _ => o))) = closeWith o y := by
  rw [matchRe_closeRe, closeWith]
  split <;> rfl

theorem length_le_of_mem_starLazyRests (p : Char → Bool) (s r : List Char)
    (h : r ∈ starLazyRests p s) : r.length ≤ s.length := by
  induction s with
  | nil => simp [starLazyRests] at h; simp [h]
  | cons c t ih =>
    simp only [starLazyRests, List.mem_cons] at h
    rcases h with rfl | h
    · exact le_rfl
    · by_cases hc : p c = true
      · simp only [hc, if_true] at h
        exact (ih h).trans (Nat.le_succ _)
      · simp [hc] at h

/-- The matches of `(.*?)` followed by the closing part, written with the
remainders of the non-greedy star. -/
theorem matchRe_tailRe (s : List Char) :
    matchRe tailRe s =
      (starLazyRests isAny s).flatMap
        (fun rest => closeWith (some (s.take (s.length - rest.length))) rest) := by
  rw [tailRe, matchRe_seq, matchRe_group, matchRe_starLazy]
  simp only [List.map_map, List.flatMap_map, Function.comp_def, matchRe_closeRe_map]

theorem flatMap_closeWith_cons (c : Char) (t : List Char) (L : List (List Char))
    (hL : ∀ r ∈ L, r.length ≤ t.length) :
    L.flatMap (fun rest => closeWith (some ((c :: t).take ((c :: t).length - rest.length))) rest) =
      (L.flatMap (fun rest => closeWith (some (t.take (t.length - rest.length))) rest)).map
        (fun m => (m.1, m.2.map (c :: ·))) := by
  induction L with
  | nil => rfl
  | cons r L ih =>
    have hr : r.length ≤ t.length := hL r (List.mem_cons_self _ _)
    have e : (c :: t).length - r.length = (t.length - r.length) + 1 := by
      simp only [List.length_cons]; omega
    rw [List.flatMap_cons, List.flatMap_cons, List.map_append,
      ih (fun r' hr' => hL r' (List.mem_cons_of_mem _ hr')), e]
    congr 1
    unfold closeWith
    split <;> simp

/-- Unfolding the non-greedy group by one character: either the closing part
matches right here (empty capture), or the capture starts with `c`. -/
theorem matchRe_tailRe_cons (c : Char) (t : List Char) :
    matchRe tailRe (c :: t) =
      closeWith (some []) (c :: t) ++
        (matchRe tailRe t).map (fun m => (m.1, m.2.map (c :: ·))) := by
  rw [matchRe_tailRe, matchRe_tailRe]
  have h : starLazyRests isAny (c :: t) = (c :: t) :: starLazyRests isAny t := by
    simp [starLazyRests, isAny]
  rw [h, List.flatMap_cons,
    flatMap_closeWith_cons c t _ (length_le_of_mem_starLazyRests isAny t)]
  simp

theorem matchRe_tailRe_nil : matchRe tailRe [] = [] := by
  rw [matchRe_tailRe]
  simp [starLazyRests, closeWith, fence, List.isPrefixOf]

theorem Index_fence_nil : Index [] fence = none := by
  simp [Index, fence]

theorem fence_isPrefixOf_dropWhile {x : List Char} (h : fence.isPrefixOf x = true) :
    x.dropWhile isReSpace = x := by
  cases x with
  | nil => rfl
  | cons c t =>
    by_cases hc : isReSpace c = true
    · rw [fence_isPrefixOf_cons_of_isReSpace t hc] at h
      exact Bool.noConfusion h
    · simp [List.dropWhile_cons, hc]

/-- When the marker follows a run of `\s`, `Index` finds it right after the
run. -/
theorem take_Index_of_close {x : List Char} {q : Nat}
    (hf : fence.isPrefixOf (x.dropWhile isReSpace) = true) (hq : Index x fence = some q) :
    x.take q = x.takeWhile isReSpace := by
  induction x generalizing q with
  | nil => simp
  | cons c t ih =>
    rw [Index_cons] at hq
    by_cases hc : isReSpace c = true
    · rw [fence_isPrefixOf_cons_of_isReSpace t hc] at hq
      simp only [Bool.false_eq_true, if_false, Option.map_eq_some'] at hq
      obtain ⟨q', hq', rfl⟩ := hq
      have hf' : fence.isPrefixOf (t.dropWhile isReSpace) = true := by
        simpa [List.dropWhile_cons, hc] using hf
      simp [List.takeWhile_cons, hc, ih hf' hq']
    · have hd : (c :: t).dropWhile isReSpace = c :: t := by
        simp [List.dropWhile_cons, hc]
      rw [hd] at hf
      rw [hf] at hq
      simp only [if_true, Option.some.injEq] at hq
      subst hq
      simp [List.takeWhile_cons, hc]

/-- The preferred match of `(.*?)\s*` and the marker: the capture is the text
up to the next marker, without the white space that the closing `\s*` eats. -/
theorem matchRe_tailRe_head {x : List Char} {q : Nat} (h : Index x fence = some q) :
    ∃ rest cap w, (matchRe tailRe x).head? = some (rest, some cap) ∧
      (∀ c ∈ w, isReSpace c = true) ∧ x.take q = cap ++ w := by
  induction x generalizing q with
  | nil => rw [Index_fence_nil] at h; exact Option.noConfusion h
  | cons c t ih =>
    rw [matchRe_tailRe_cons]
    by_cases hf : fence.isPrefixOf ((c :: t).dropWhile isReSpace) = true
    · refine ⟨((c :: t).dropWhile isReSpace).drop 3, [], (c :: t).takeWhile isReSpace, ?_, ?_, ?_⟩
      · simp [closeWith, hf]
      · intro a ha
        exact List.mem_takeWhile_imp ha
      · rw [take_Index_of_close hf h]; rfl
    · have hcw : closeWith (some []) (c :: t) = [] := by
        simp [closeWith, hf]
      have hp : fence.isPrefixOf (c :: t) = false := by
        apply Bool.eq_false_iff.mpr
        intro hp
        rw [fence_isPrefixOf_dropWhile hp] at hf
        exact hf hp
      rw [Index_cons, hp] at h
      simp only [Bool.false_eq_true, if_false, Option.map_eq_some'] at h
      obtain ⟨q', hq', rfl⟩ := h
      obtain ⟨rest, cap, w, h1, h2, h3⟩ := ih hq'
      refine ⟨rest, c :: cap, w, ?_, h2, ?_⟩
      · rw [hcw, List.nil_append, List.head?_map, h1]; rfl
      · simp [h3]

theorem matchRe_tailRe_none {x : List Char} (h : Index x fence = none) :
    matchRe tailRe x = [] := by
  induction x with
  | nil => exact matchRe_tailRe_nil
  | cons c t ih =>
    rw [matchRe_tailRe_cons, ih (Index_none_of_suffix h (List.suffix_cons c t))]
    have hf : fence.isPrefixOf ((c :: t).dropWhile isReSpace) = false :=
      (Index_eq_none_iff _ _).mp h _ (List.dropWhile_suffix _)
    simp [closeWith, hf]

theorem matchRe_bodyRe (y : List Char) :
    matchRe bodyRe y = (starRests isReSpace y).flatMap (fun rest => matchRe tailRe rest) := by
  rw [bodyRe, matchRe_seq, matchRe_star]
  simp only [List.flatMap_map, map_orElse_none]

theorem matchRe_bodyRe_cons (c : Char) (t : List Char) :
    matchRe bodyRe (c :: t) =
      if isReSpace c then matchRe bodyRe t ++ matchRe tailRe (c :: t)
      else matchRe tailRe (c :: t) := by
  rw [matchRe_bodyRe, matchRe_bodyRe]
  by_cases hc : isReSpace c = true <;> simp [starRests, hc]

/-- The preferred match of `\s*(.*?)\s*` and the marker: the capture is the
text up to the next marker, without the surrounding `\s` runs. -/
theorem matchRe_bodyRe_head {y : List Char} {q : Nat} (h : Index y fence = some q) :
    ∃ rest cap w₁ w₂, (matchRe bodyRe y).head? = some (rest, some cap) ∧
      (∀ c ∈ w₁, isReSpace c = true) ∧ (∀ c ∈ w₂, isReSpace c = true) ∧
      y.take q = w₁ ++ cap ++ w₂ := by
  induction y generalizing q with
  | nil => rw [Index_fence_nil] at h; exact Option.noConfusion h
  | cons c t ih =>
    rw [matchRe_bodyRe_cons]
    by_cases hc : isReSpace c = true
    · rw [Index_cons, fence_isPrefixOf_cons_of_isReSpace t hc] at h
      simp only [Bool.false_eq_true, if_false, Option.map_eq_some'] at h
      obtain ⟨q', hq', rfl⟩ := h
      obtain ⟨rest, cap, w₁, w₂, h1, h2, h3, h4⟩ := ih hq'
      refine ⟨rest, cap, c :: w₁, w₂, ?_, ?_, h3, ?_⟩
      · simp only [hc, if_true]
        cases hm : matchRe bodyRe t with
        | nil => rw [hm] at h1; exact Option.noConfusion h1
        | cons a l => rw [hm] at h1; simpa using h1
      · intro a ha
        rcases List.mem_cons.mp ha with rfl | ha
        · exact hc
        · exact h2 a ha
      · simp [h4]
    · obtain ⟨rest, cap, w, h1, h2, h3⟩ := matchRe_tailRe_head h
      refine ⟨rest, cap, [], w, ?_, ?_, h2, ?_⟩
      · simp only [hc, Bool.false_eq_true, if_false]
        exact h1
      · intro a ha; cases ha
      · simpa using h3

theorem matchRe_bodyRe_none {y : List Char} (h : Index y fence = none) :
    matchRe bodyRe y = [] := by
  induction y with
  | nil =>
    rw [matchRe_bodyRe]
    simp [starRests, matchRe_tailRe_nil]
  | cons c t ih =>
    rw [matchRe_bodyRe_cons, ih (Index_none_of_suffix h (List.suffix_cons c t)),
      matchRe_tailRe_none h]
    simp

/-! ## `TrimSpace` ignores surrounding white space -/

theorem dropWhile_append_of_all (p : Char → Bool) (w l : List Char)
    (hw : ∀ c ∈ w, p c = true) : (w ++ l).dropWhile p = l.dropWhile p := by
  induction w with
  | nil => rfl
  | cons a w ih =>
    have ha : p a = true := hw a (List.mem_cons_self _ _)
    simp only [List.cons_append, List.dropWhile_cons, ha, if_true]
    exact ih (fun c hc => hw c (List.mem_cons_of_mem _ hc))

theorem rdropWhile_append_of_all (p : Char → Bool) (l w : List Char)
    (hw : ∀ c ∈ w, p c = true) : (l ++ w).rdropWhile p = l.rdropWhile p := by
  unfold List.rdropWhile
  rw [List.reverse_append, dropWhile_append_of_all p _ _ (fun c hc => hw c (List.mem_reverse.mp hc))]

theorem TrimSpace_append_right (s w : List Char) (hw : ∀ c ∈ w, isSpace c = true) :
    TrimSpace (s ++ w) = TrimSpace s := by
  unfold TrimSpace
  induction s with
  | nil =>
    have : (w.dropWhile isSpace) = [] := by
      have := dropWhile_append_of_all isSpace w [] hw
      simpa using this
    simp [this]
  | cons a s ih =>
    by_cases ha : isSpace a = true
    · simpa [List.dropWhile_cons, ha] using ih
    · simp only [List.cons_append, List.dropWhile_cons, ha, Bool.false_eq_true, if_false]
      exact rdropWhile_append_of_all isSpace (a :: s) w hw

theorem TrimSpace_append_left (w s : List Char) (hw : ∀ c ∈ w, isSpace c = true) :
    TrimSpace (w ++ s) = TrimSpace s := by
  unfold TrimSpace
  rw [dropWhile_append_of_all isSpace w s hw]

/-- `strings.TrimSpace` does not see white space added on either side. -/
theorem TrimSpace_pad (w₁ s w₂ : List Char) (h₁ : ∀ c ∈ w₁, isReSpace c = true)
    (h₂ : ∀ c ∈ w₂, isReSpace c = true) : TrimSpace (w₁ ++ s ++ w₂) = TrimSpace s := by
  rw [TrimSpace_append_right _ _ (fun c hc => isSpace_of_isReSpace (h₂ c hc)),
    TrimSpace_append_left _ _ (fun c hc => isSpace_of_isReSpace (h₁ c hc))]

/-! ## The whole expression -/

theorem Index_cons_ne {c : Char} (t : List Char) (hc : c ≠ backtick) :
    Index (c :: t) fence = (Index t fence).map (· + 1) := by
  rw [Index_cons]
  have : fence.isPrefixOf (c :: t) = false := by
    simp [fence, List.isPrefixOf, hc, Ne.symm hc]
  simp [this]

theorem matchRe_tagRe (r : List Char) :
    matchRe tagRe r =
      (if jsonTag.isPrefixOf r then matchRe bodyRe (r.drop 4) else []) ++ matchRe bodyRe r := by
  rw [tagRe, matchRe_seq, matchRe_opt, matchRe_lit]
  split <;> simp [map_orElse_none, jsonTag]

theorem Index_drop_jsonTag {r : List Char} {q : Nat} (hj : jsonTag.isPrefixOf r = true)
    (h : Index r fence = some q) :
    ∃ q', q = q' + 4 ∧ Index (r.drop 4) fence = some q' := by
  obtain ⟨r', rfl⟩ := List.isPrefixOf_iff_prefix.mp hj
  simp only [jsonTag, List.cons_append, List.nil_append] at h ⊢
  rw [Index_cons_ne _ (by decide), Index_cons_ne _ (by decide), Index_cons_ne _ (by decide),
    Index_cons_ne _ (by decide)] at h
  simp only [Option.map_map, Option.map_eq_some', Function.comp_apply] at h
  obtain ⟨q', hq', rfl⟩ := h
  exact ⟨q', rfl, by simpa using hq'⟩

/-- After the opening marker the preferred match skips a literal json tag if
there is one, and captures the text up to the next marker, trimmed of `\s`. -/
theorem matchRe_tagRe_head {r : List Char} {q : Nat} (h : Index r fence = some q) :
    ∃ rest cap, (matchRe tagRe r).head? = some (rest, some cap) ∧
      TrimSpace cap = TrimSpace (slice r (tagLen r) q) := by
  rw [matchRe_tagRe]
  by_cases hj : jsonTag.isPrefixOf r = true
  · obtain ⟨q', rfl, hq'⟩ := Index_drop_jsonTag hj h
    obtain ⟨rest, cap, w₁, w₂, h1, h2, h3, h4⟩ := matchRe_bodyRe_head hq'
    refine ⟨rest, cap, ?_, ?_⟩
    · simp only [hj, if_true]
      cases hm : matchRe bodyRe (r.drop 4) with
      | nil => rw [hm] at h1; exact Option.noConfusion h1
      | cons a l => rw [hm] at h1; simpa using h1
    · have e : slice r (tagLen r) (q' + 4) = (r.drop 4).take q' := by
        simp only [slice, tagLen, hj, if_true]
        rw [List.take_drop, Nat.add_comm]
      rw [e, h4, TrimSpace_pad _ _ _ h2 h3]
  · obtain ⟨rest, cap, w₁, w₂, h1, h2, h3, h4⟩ := matchRe_bodyRe_head h
    refine ⟨rest, cap, ?_, ?_⟩
    · simp only [hj, Bool.false_eq_true, if_false, List.nil_append]
      exact h1
    · have e : slice r (tagLen r) q = r.take q := by
        simp [slice, tagLen, hj]
      rw [e, h4, TrimSpace_pad _ _ _ h2 h3]

theorem matchRe_tagRe_none {r : List Char} (h : Index r fence = none) :
    matchRe tagRe r = [] := by
  rw [matchRe_tagRe, matchRe_bodyRe_none h,
    matchRe_bodyRe_none (Index_none_of_suffix h (List.drop_suffix 4 r))]
  simp

theorem matchRe_markdownCodeBlockRegex (s : List Char) :
    matchRe markdownCodeBlockRegex s =
      if fence.isPrefixOf s then matchRe tagRe (s.drop 3) else [] := by
  rw [markdownCodeBlockRegex_eq, matchRe_seq, matchRe_lit]
  split <;> simp [map_orElse_none, fence]

/-! ## `FindStringSubmatch` on the expression of the parser -/

theorem submatchAt_of_no_marker {s : List Char} (h : fence.isPrefixOf s = false) :
    submatchAt markdownCodeBlockRegex s = [] := by
  simp [submatchAt, matchRe_markdownCodeBlockRegex, h]

theorem submatchAt_of_none {s : List Char} (h : Index (s.drop 3) fence = none) :
    submatchAt markdownCodeBlockRegex s = [] := by
  rw [submatchAt, matchRe_markdownCodeBlockRegex, matchRe_tagRe_none h]
  simp

theorem submatchAt_of_some {s : List Char} {q : Nat} (hf : fence.isPrefixOf s = true)
    (h : Index (s.drop 3) fence = some q) :
    ∃ whole cap, submatchAt markdownCodeBlockRegex s = [whole, cap] ∧
      TrimSpace cap = TrimSpace (slice (s.drop 3) (tagLen (s.drop 3)) q) := by
  obtain ⟨rest, cap, h1, h2⟩ := matchRe_tagRe_head h
  refine ⟨s.take (s.length - rest.length), cap, ?_, h2⟩
  rw [submatchAt, matchRe_markdownCodeBlockRegex]
  simp only [hf, if_true, h1, Option.getD_some]

theorem FindStringSubmatch_cons_of_nil {c : Char} {t : List Char}
    (h : submatchAt markdownCodeBlockRegex (c :: t) = []) :
    FindStringSubmatch markdownCodeBlockRegex (c :: t) =
      FindStringSubmatch markdownCodeBlockRegex t := by
  simp only [FindStringSubmatch, h]

/-- The leftmost match starts at the first marker that is followed by another
marker; its capture, once trimmed, is the trimmed text between the opening
marker (and the json tag) and the next marker. -/
theorem FindStringSubmatch_of_fenced {s : List Char} {p q : Nat}
    (hp : Index s fence = some p) (hq : Index (s.drop (p + 3)) fence = some q) :
    ∃ whole cap, FindStringSubmatch markdownCodeBlockRegex s = [whole, cap] ∧
      TrimSpace cap =
        TrimSpace (slice (s.drop (p + 3)) (tagLen (s.drop (p + 3))) q) := by
  induction s generalizing p with
  | nil => rw [Index_fence_nil] at hp; exact Option.noConfusion hp
  | cons c t ih =>
    rw [Index_cons] at hp
    by_cases hf : fence.isPrefixOf (c :: t) = true
    · simp only [hf, if_true, Option.some.injEq] at hp
      subst hp
      obtain ⟨whole, cap, h1, h2⟩ := submatchAt_of_some hf hq
      refine ⟨whole, cap, ?_, h2⟩
      simp only [FindStringSubmatch, h1]
    · have hf' : fence.isPrefixOf (c :: t) = false := Bool.eq_false_iff.mpr hf
      simp only [hf', Bool.false_eq_true, if_false, Option.map_eq_some'] at hp
      obtain ⟨p', hp', rfl⟩ := hp
      rw [FindStringSubmatch_cons_of_nil (submatchAt_of_no_marker hf')]
      have e : (c :: t).drop (p' + 1 + 3) = t.drop (p' + 3) := by
        rw [show p' + 1 + 3 = (p' + 3) + 1 from by omega, List.drop_succ_cons]
      rw [e] at hq ⊢
      exact ih hp' hq

/-- No match at all when every marker of the text lacks a later marker. -/
theorem FindStringSubmatch_eq_nil {s : List Char}
    (h : ∀ y, y <:+ s → fence.isPrefixOf y = true → Index (y.drop 3) fence = none) :
    FindStringSubmatch markdownCodeBlockRegex s = [] := by
  induction s with
  | nil =>
    simp only [FindStringSubmatch]
    exact submatchAt_of_no_marker (by simp [fence, List.isPrefixOf])
  | cons c t ih =>
    have h0 : submatchAt markdownCodeBlockRegex (c :: t) = [] := by
      by_cases hf : fence.isPrefixOf (c :: t) = true
      · exact submatchAt_of_none (h _ (List.suffix_refl _) hf)
      · exact submatchAt_of_no_marker (Bool.eq_false_iff.mpr hf)
    rw [FindStringSubmatch_cons_of_nil h0]
    exact ih (fun y hy hf => h y (hy.trans (List.suffix_cons c t)) hf)

/-- The first occurrence is the leftmost one: every suffix that starts with the
separator lies within the suffix at the index found. -/
theorem suffix_drop_Index {s y sep : List Char} {p : Nat} (h : Index s sep = some p)
    (hy : y <:+ s) (hs : sep.isPrefixOf y = true) : y <:+ s.drop p := by
  induction s generalizing p with
  | nil => simpa using hy
  | cons c t ih =>
    rw [Index_cons] at h
    by_cases hf : sep.isPrefixOf (c :: t) = true
    · simp only [hf, if_true, Option.some.injEq] at h
      subst h
      simpa using hy
    · simp only [hf, Bool.false_eq_true, if_false, Option.map_eq_some'] at h
      obtain ⟨p', hp', rfl⟩ := h
      rcases List.suffix_cons_iff.mp hy with rfl | hy'
      · exact absurd hs hf
      · simpa using ih hp' hy'

theorem drop_suffix_drop {y z : List Char} (n : Nat) (h : y <:+ z) :
    y.drop n <:+ z.drop n := by
  apply List.suffix_of_suffix_length_le ((List.drop_suffix n y).trans h) (List.drop_suffix n z)
  have := h.length_le
  simp only [List.length_drop]
  omega

theorem FindStringSubmatch_of_no_fence {content : List Char}
    (h : hasFencedBlock content = false) :
    FindStringSubmatch markdownCodeBlockRegex content = [] := by
  apply FindStringSubmatch_eq_nil
  intro y hy hf
  unfold hasFencedBlock at h
  cases hp : Index content fence with
  | none => rw [(Index_eq_none_iff _ _).mp hp y hy] at hf; exact Bool.noConfusion hf
  | some p =>
    rw [hp] at h
    have hn : Index (content.drop (p + 3)) fence = none := by
      cases hq : Index (content.drop (p + 3)) fence with
      | none => rfl
      | some q => simp only [hq, Option.isSome_some] at h; exact Bool.noConfusion h
    have h1 : y.drop 3 <:+ (content.drop p).drop 3 :=
      drop_suffix_drop 3 (suffix_drop_Index hp hy hf)
    rw [List.drop_drop] at h1
    exact Index_none_of_suffix hn h1

theorem slice_drop (l : List Char) (k a q : Nat) :
    slice (l.drop k) a q = slice l (k + a) (k + q) := by
  simp only [slice]
  rw [List.take_drop, List.drop_drop]

/-- The fenced path of `cleanMarkdown`, in absolute indices. -/
theorem cleanMarkdown_of_markers {content : List Char} {p q : Nat}
    (hp : Index content fence = some p)
    (hq : Index (content.drop (p + 3)) fence = some q) :
    cleanMarkdown content =
      TrimSpace (slice content (p + 3 + tagLen (content.drop (p + 3))) (p + 3 + q)) := by
  obtain ⟨whole, cap, h1, h2⟩ := FindStringSubmatch_of_fenced hp hq
  rw [slice_drop] at h2
  simp only [cleanMarkdown, h1, h2]

/-! ## C1: the first fenced block wins -/

/-- C1. Whenever the first marker of the content (at index `p`) is followed by
another marker (at index `p + 3 + q`), `cleanMarkdown` returns
`strings.TrimSpace` of the text between the opening marker, after a literal
json tag if there is one, and that next marker, whatever comes before the
opening marker or after the closing one. -/
theorem cleanMarkdown_fenced (content : List Char) (p q : Nat)
    (hp : Index content fence = some p)
    (hq : Index (content.drop (p + 3)) fence = some q) :
    cleanMarkdown content =
      TrimSpace (slice content (p + 3 + tagLen (content.drop (p + 3))) (p + 3 + q)) :=
  cleanMarkdown_of_markers hp hq

/-- C1, at the input of the specification: prose, a json block, more prose. -/
theorem cleanMarkdown_fenced_witness :
    cleanMarkdown
        "Here is the result:\n```json\n\x7b\"answer\": \"ok\"\x7d\n```\nThanks.".toList =
      "\x7b\"answer\": \"ok\"\x7d".toList :=
  (cleanMarkdown_fenced _ 20 22 (by decide) (by decide)).trans (by decide)

/-! ## C3 and C4: brace counting -/

theorem braceDepth_nil : braceDepth [] = 0 := rfl

theorem braceDepth_cons_lbrace (t : List Char) :
    braceDepth (lbrace :: t) = braceDepth t + 1 := by
  have h : (lbrace == rbrace) = false := by decide
  simp only [braceDepth, List.count_cons_self, List.count_cons, h, Bool.false_eq_true, if_false]
  push_cast
  ring

theorem braceDepth_cons_rbrace (t : List Char) :
    braceDepth (rbrace :: t) = braceDepth t - 1 := by
  have h : (rbrace == lbrace) = false := by decide
  simp only [braceDepth, List.count_cons_self, List.count_cons, h, Bool.false_eq_true, if_false]
  push_cast
  ring

theorem braceDepth_cons_other {c : Char} (t : List Char) (h₁ : c ≠ lbrace) (h₂ : c ≠ rbrace) :
    braceDepth (c :: t) = braceDepth t := by
  simp [braceDepth, List.count_cons, h₁, h₂]

/-- The loop finds nothing when the depth never returns to zero. -/
theorem braceLoop_eq_none (l : List Char) (i : Nat) (b : Int)
    (h : ∀ n, n < l.length → b + braceDepth (l.take (n + 1)) ≠ 0) :
    braceLoop l i b = none := by
  induction l generalizing i b with
  | nil => rfl
  | cons c t ih =>
    have hstep : ∀ d : Int, braceDepth [c] = d →
        (∀ n, n < t.length → braceDepth ((c :: t).take (n + 1 + 1)) =
          braceDepth (t.take (n + 1)) + d) → b + d ≠ 0 ∧
          ∀ n, n < t.length → (b + d) + braceDepth (t.take (n + 1)) ≠ 0 := by
      intro d h0 hd
      refine ⟨?_, fun n hn => ?_⟩
      · have := h 0 (by simp)
        simpa [h0] using this
      · have := h (n + 1) (by simpa using hn)
        rw [hd n hn] at this
        intro hz
        apply this
        omega
    unfold braceLoop
    by_cases h₁ : c = lbrace
    · subst h₁
      obtain ⟨_, h3⟩ := hstep 1 (by simp [braceDepth_cons_lbrace, braceDepth_nil])
        (fun n _ => by simp [braceDepth_cons_lbrace])
      simp only [if_true]
      exact ih (i + 1) (b + 1) h3
    · by_cases h₂ : c = rbrace
      · subst h₂
        obtain ⟨h2, h3⟩ := hstep (-1) (by simp [braceDepth_cons_rbrace, braceDepth_nil])
          (fun n _ => by simp [braceDepth_cons_rbrace]; ring)
        have h2' : b - 1 ≠ 0 := by simpa [sub_eq_add_neg] using h2
        simp only [h₁, if_false, h2', if_true]
        exact ih (i + 1) (b - 1) (by simpa [sub_eq_add_neg] using h3)
      · obtain ⟨_, h3⟩ := hstep 0 (by simp [braceDepth_cons_other _ h₁ h₂, braceDepth_nil])
          (fun n _ => by simp [braceDepth_cons_other _ h₁ h₂])
        simp only [h₁, h₂, if_false]
        exact ih (i + 1) b (by simpa using h3)

theorem getLast?_cons_of_some {c b : Char} {x : List Char} (h : x.getLast? = some b) :
    (c :: x).getLast? = some b := by
  cases x with
  | nil => exact Option.noConfusion h
  | cons a l => simpa [List.getLast?_cons_cons] using h

/-- The loop returns at the first index where the depth is back to zero, and
the character there is a closing brace. -/
theorem braceLoop_eq_some (l : List Char) (i : Nat) (b : Int) (n : Nat) (hb : 1 ≤ b)
    (hn : n < l.length) (hz : b + braceDepth (l.take (n + 1)) = 0)
    (hmin : ∀ m, m < n → b + braceDepth (l.take (m + 1)) ≠ 0) :
    braceLoop l i b = some (i + n) ∧ (l.take (n + 1)).getLast? = some rbrace := by
  induction l generalizing i b n with
  | nil => exact absurd hn (by simp)
  | cons c t ih =>
    have hrec : ∀ d : Int, braceDepth [c] = d →
        (∀ k, braceDepth ((c :: t).take (k + 1 + 1)) = braceDepth (t.take (k + 1)) + d) →
        1 ≤ b + d → b + d ≠ 0 →
        braceLoop t (i + 1) (b + d) = some (i + n) ∧
          ((c :: t).take (n + 1)).getLast? = some rbrace := by
      intro d h0 hd hb' hne
      cases n with
      | zero =>
        exfalso
        apply hne
        simpa [h0] using hz
      | succ n' =>
        have hn' : n' < t.length := by simpa using hn
        have hz' : (b + d) + braceDepth (t.take (n' + 1)) = 0 := by
          rw [hd n'] at hz
          omega
        have hmin' : ∀ m, m < n' → (b + d) + braceDepth (t.take (m + 1)) ≠ 0 := by
          intro m hm hzero
          apply hmin (m + 1) (by omega)
          rw [hd m]
          omega
        obtain ⟨h1, h2⟩ := ih (i + 1) (b + d) n' hb' hn' hz' hmin'
        refine ⟨?_, ?_⟩
        · rw [h1]; congr 1; omega
        · rw [List.take_succ_cons]
          exact getLast?_cons_of_some h2
    unfold braceLoop
    by_cases h₁ : c = lbrace
    · subst h₁
      simp only [if_true]
      exact hrec 1 (by simp [braceDepth_cons_lbrace, braceDepth_nil])
        (fun k => by simp [braceDepth_cons_lbrace]) (by omega) (by omega)
    · by_cases h₂ : c = rbrace
      · subst h₂
        simp only [h₁, if_false, if_true]
        by_cases hb1 : b - 1 = 0
        · simp only [hb1, if_true]
          have hn0 : n = 0 := by
            by_contra hne
            apply hmin 0 (Nat.pos_of_ne_zero hne)
            simp only [List.take_succ_cons, List.take_zero, braceDepth_cons_rbrace,
              braceDepth_nil]
            omega
          subst hn0
          simp
        · simp only [hb1, if_false]
          have := hrec (-1) (by simp [braceDepth_cons_rbrace, braceDepth_nil])
            (fun k => by simp [braceDepth_cons_rbrace]; ring) (by omega) (by omega)
          simpa [sub_eq_add_neg] using this
      · simp only [h₁, h₂, if_false]
        have := hrec 0 (by simp [braceDepth_cons_other _ h₁ h₂, braceDepth_nil])
          (fun k => by simp [braceDepth_cons_other _ h₁ h₂]) (by omega) (by omega)
        simpa using this

theorem TrimSpace_eq_self {l : List Char} {a b : Char} (h₁ : l.head? = some a)
    (h₂ : l.getLast? = some b) (ha : isSpace a = false) (hb : isSpace b = false) :
    TrimSpace l = l := by
  cases l with
  | nil => exact Option.noConfusion h₁
  | cons x t =>
    have hx : x = a := by simpa using h₁
    subst hx
    unfold TrimSpace
    have hd : (x :: t).dropWhile isSpace = x :: t := by
      simp [List.dropWhile_cons, ha]
    rw [hd]
    apply List.rdropWhile_eq_self_iff.mpr
    intro hl
    have : (x :: t).getLast? = some ((x :: t).getLast hl) := List.getLast?_eq_getLast _ hl
    rw [h₂] at this
    have hb' : (x :: t).getLast hl = b := (Option.some.inj this).symm
    rw [hb', hb]
    exact Bool.false_ne_true

theorem slice_eq_take_drop (l : List Char) (s k : Nat) :
    slice l s (s + k) = (l.drop s).take k := by
  have := slice_drop l s 0 k
  simpa [slice] using this.symm

theorem drop_Index_lbrace {content : List Char} {s : Nat}
    (hs : Index content [lbrace] = some s) :
    ∃ t, content.drop s = lbrace :: t := by
  have h := Index_some_starts hs
  obtain ⟨t, ht⟩ := List.isPrefixOf_iff_prefix.mp h
  exact ⟨t, by simpa using ht.symm⟩

/-- The brace-counting path of `cleanMarkdown`. -/
theorem cleanMarkdown_of_balanced {content : List Char} {s e : Nat}
    (hnf : hasFencedBlock content = false)
    (hs : Index content [lbrace] = some s)
    (hse : s ≤ e) (he : e < content.length)
    (hz : braceDepth (slice content s (e + 1)) = 0)
    (hmin : ∀ e', e' < e → s ≤ e' → braceDepth (slice content s (e' + 1)) ≠ 0) :
    cleanMarkdown content = slice content s (e + 1) ∧
      (slice content s (e + 1)).head? = some lbrace ∧
      (slice content s (e + 1)).getLast? = some rbrace := by
  obtain ⟨t, ht⟩ := drop_Index_lbrace hs
  have hlen : content.length = s + (t.length + 1) := by
    have := congrArg List.length ht
    simp only [List.length_drop, List.length_cons] at this
    omega
  have hsl : ∀ k, slice content s (s + (k + 1)) = lbrace :: t.take k := by
    intro k
    rw [slice_eq_take_drop, ht, List.take_succ_cons]
  have hne : e ≠ s := by
    rintro rfl
    have := hsl 0
    simp only [Nat.zero_add] at this
    rw [this] at hz
    simp [braceDepth_cons_lbrace, braceDepth_nil] at hz
  obtain ⟨n, rfl⟩ : ∃ n, e = s + (n + 1) := ⟨e - s - 1, by omega⟩
  have hz' : (1 : Int) + braceDepth (t.take (n + 1)) = 0 := by
    have := hsl (n + 1)
    rw [show s + (n + 1 + 1) = s + (n + 1) + 1 from rfl] at this
    rw [this, braceDepth_cons_lbrace] at hz
    omega
  have hmin' : ∀ m, m < n → (1 : Int) + braceDepth (t.take (m + 1)) ≠ 0 := by
    intro m hm hzero
    apply hmin (s + (m + 1)) (by omega) (by omega)
    have := hsl (m + 1)
    rw [show s + (m + 1 + 1) = s + (m + 1) + 1 from rfl] at this
    rw [this, braceDepth_cons_lbrace]
    omega
  obtain ⟨h1, h2⟩ := braceLoop_eq_some t (s + 1) 1 n le_rfl (by omega) hz' hmin'
  have hloop : braceLoop (content.drop s) s 0 = some (s + (n + 1)) := by
    rw [ht]
    unfold braceLoop
    simp only [if_true, Int.zero_add]
    rw [h1]
    congr 1
    omega
  have hslice : slice content s (s + (n + 1) + 1) = lbrace :: t.take (n + 1) := hsl (n + 1)
  have hhead : (slice content s (s + (n + 1) + 1)).head? = some lbrace := by
    rw [hslice]; rfl
  have hlast : (slice content s (s + (n + 1) + 1)).getLast? = some rbrace := by
    rw [hslice]; exact getLast?_cons_of_some h2
  refine ⟨?_, hhead, hlast⟩
  simp only [cleanMarkdown, FindStringSubmatch_of_no_fence hnf, hs, hloop]
  exact TrimSpace_eq_self hhead hlast (by decide) (by decide)

/-- C3. With no fenced block, a first opening brace at index `s`, and `e` the
first index from `s` on at which the count of opening braces minus the count
of closing braces of `content[s..e]` is zero, `cleanMarkdown` returns exactly
`content[s..e]`, which starts with an opening and ends with a closing brace.
Every brace counts, also one inside a string literal. -/
theorem cleanMarkdown_brace (content : List Char) (s e : Nat)
    (hnf : hasFencedBlock content = false)
    (hs : Index content [lbrace] = some s)
    (hse : s ≤ e) (he : e < content.length)
    (hz : braceDepth (slice content s (e + 1)) = 0)
    (hmin : ∀ e', e' < e → s ≤ e' → braceDepth (slice content s (e' + 1)) ≠ 0) :
    cleanMarkdown content = slice content s (e + 1) ∧
      (slice content s (e + 1)).head? = some lbrace ∧
      (slice content s (e + 1)).getLast? = some rbrace :=
  cleanMarkdown_of_balanced hnf hs hse he hz hmin

/-- C3, at the input of the claim: the brace inside the string literal closes
the scan, so the candidate stops in the middle of the string. -/
theorem cleanMarkdown_brace_witness :
    cleanMarkdown "\x7b\"a\": \"\x7d\"\x7d".toList = "\x7b\"a\": \"\x7d".toList :=
  (cleanMarkdown_brace "\x7b\"a\": \"\x7d\"\x7d".toList 0 7 (by decide) (by decide)
    (by decide) (by decide) (by decide) (by decide)).1.trans (by decide)

/-- The last-resort path of `cleanMarkdown`. -/
theorem cleanMarkdown_of_unclosed {content : List Char}
    (hnf : hasFencedBlock content = false)
    (h : Index content [lbrace] = none ∨
      ∃ s, Index content [lbrace] = some s ∧
        ∀ e, e < content.length → s ≤ e → braceDepth (slice content s (e + 1)) ≠ 0) :
    cleanMarkdown content = TrimSpace content := by
  rcases h with h | ⟨s, hs, hnz⟩
  · simp only [cleanMarkdown, FindStringSubmatch_of_no_fence hnf, h]
  · have hloop : braceLoop (content.drop s) s 0 = none := by
      apply braceLoop_eq_none
      intro n hn
      have hn' : s + n < content.length := by
        simp only [List.length_drop] at hn
        omega
      have := hnz (s + n) hn' (Nat.le_add_right s n)
      rw [show s + n + 1 = s + (n + 1) from rfl, slice_eq_take_drop] at this
      simpa using this
    simp only [cleanMarkdown, FindStringSubmatch_of_no_fence hnf, hs, hloop]

/-- C4. With no fenced block, when the content has no opening brace at all, or
the depth counted from its first opening brace never returns to zero before
the end of the input, `cleanMarkdown` returns `strings.TrimSpace(content)`. -/
theorem cleanMarkdown_fallback (content : List Char)
    (hnf : hasFencedBlock content = false)
    (h : Index content [lbrace] = none ∨
      ∃ s, Index content [lbrace] = some s ∧
        ∀ e, e < content.length → s ≤ e → braceDepth (slice content s (e + 1)) ≠ 0) :
    cleanMarkdown content = TrimSpace content :=
  cleanMarkdown_of_unclosed hnf h

/-- C4, at the two inputs of the claim: text without any brace, and an object
whose opening brace is never closed (returned unchanged). -/
theorem cleanMarkdown_fallback_witness :
    cleanMarkdown "no json here".toList = "no json here".toList ∧
    cleanMarkdown "\x7b\"answer\": \"partial\"".toList = "\x7b\"answer\": \"partial\"".toList :=
  ⟨(cleanMarkdown_fallback "no json here".toList (by decide) (Or.inl (by decide))).trans
      (by decide),
   (cleanMarkdown_fallback "\x7b\"answer\": \"partial\"".toList (by decide)
      (Or.inr ⟨0, by decide, by decide⟩)).trans (by decide)⟩

/-! ## C2: only the literal json tag is stripped -/

theorem dropWhile_append_of_head (p : Char → Bool) (u v : List Char) {x : Char}
    (hv : v.head? = some x) (hx : p x = false) :
    (u ++ v).dropWhile p = u.dropWhile p ++ v := by
  induction u with
  | nil =>
    cases v with
    | nil => exact Option.noConfusion hv
    | cons y v =>
      have : y = x := by simpa using hv
      subst this
      simp [List.dropWhile_cons, hx]
  | cons c u ih =>
    by_cases hc : p c = true
    · simpa [List.dropWhile_cons, hc] using ih
    · simp [List.dropWhile_cons, hc]

theorem rdropWhile_append_of_getLast (p : Char → Bool) (u v : List Char) {x : Char}
    (hu : u.getLast? = some x) (hx : p x = false) :
    (u ++ v).rdropWhile p = u ++ v.rdropWhile p := by
  unfold List.rdropWhile
  rw [List.reverse_append,
    dropWhile_append_of_head p v.reverse u.reverse (by rw [List.head?_reverse]; exact hu) hx]
  simp

/-- `TrimSpace` keeps a leading word that neither starts nor ends with white
space. -/
theorem TrimSpace_append_word (tag r : List Char) {a b : Char}
    (ha : tag.head? = some a) (hna : isSpace a = false)
    (hb : tag.getLast? = some b) (hnb : isSpace b = false) :
    TrimSpace (tag ++ r) = tag ++ r.rdropWhile isSpace := by
  unfold TrimSpace
  have hd : (tag ++ r).dropWhile isSpace = tag ++ r := by
    cases tag with
    | nil => exact Option.noConfusion ha
    | cons y t =>
      have : y = a := by simpa using ha
      subst this
      simp [List.dropWhile_cons, hna]
  rw [hd, rdropWhile_append_of_getLast isSpace tag r hb hnb]

/-- C2, as the code has it. A fenced block is taken whatever follows its
opening marker, but only a literal lower-case json directly after the marker
is stripped. For a content whose first marker is followed by the tag `tag`
(starting and ending with a character that is not white space) and, `q`
characters after the opening marker, by the next marker: when the tag is the
literal json the result is the trimmed text after the tag; when the text after
the opening marker does not start with the literal json the tag is kept, and
the result is the tag followed by the inner text without its trailing white
space. -/
theorem cleanMarkdown_tag (pre tag rest : List Char) (q : Nat) (a b : Char)
    (hp : Index (pre ++ fence ++ (tag ++ rest)) fence = some pre.length)
    (hq : Index (tag ++ rest) fence = some q)
    (hlen : tag.length ≤ q)
    (ha : tag.head? = some a) (hna : isSpace a = false)
    (hb : tag.getLast? = some b) (hnb : isSpace b = false) :
    (tag = jsonTag →
      cleanMarkdown (pre ++ fence ++ (tag ++ rest)) = TrimSpace (rest.take (q - 4))) ∧
    (jsonTag.isPrefixOf (tag ++ rest) = false →
      cleanMarkdown (pre ++ fence ++ (tag ++ rest)) =
        tag ++ (rest.take (q - tag.length)).rdropWhile isSpace) := by
  have hdrop : (pre ++ fence ++ (tag ++ rest)).drop (pre.length + 3) = tag ++ rest := by
    have : pre.length + 3 = (pre ++ fence).length := by simp [fence]
    rw [this, List.drop_left]
  have hq' : Index ((pre ++ fence ++ (tag ++ rest)).drop (pre.length + 3)) fence = some q := by
    rw [hdrop]; exact hq
  have key := cleanMarkdown_of_markers hp hq'
  rw [← slice_drop, hdrop] at key
  constructor
  · intro ht
    rw [key]
    subst ht
    have h4 : tagLen (jsonTag ++ rest) = 4 := by simp [tagLen, jsonTag]
    have hl : jsonTag.length = 4 := rfl
    rw [h4, slice, List.take_append_eq_append_take, List.take_of_length_le hlen, hl,
      List.drop_left' hl]
  · intro hj
    rw [key]
    have h0 : tagLen (tag ++ rest) = 0 := by simp [tagLen, hj]
    rw [h0, slice, List.drop_zero, List.take_append_eq_append_take, List.take_of_length_le hlen,
      TrimSpace_append_word _ _ ha hna hb hnb]

/-- C2 as amended, at a block tagged javascript: the tag stays in the result. -/
theorem cleanMarkdown_tag_witness :
    cleanMarkdown ([] ++ fence ++ ("javascript".toList ++ "\n\x7b\x7d\n```".toList)) =
      "javascript\n\x7b\x7d".toList :=
  ((cleanMarkdown_tag [] "javascript".toList "\n\x7b\x7d\n```".toList 14 'j' 't'
    (by decide) (by decide) (by decide) (by decide) (by decide) (by decide) (by decide)).2
    (by decide)).trans (by decide)

/-- C2 as stated fails: a tag other than the literal lower-case json is not
stripped, so the result starts with the tag. -/
theorem cleanMarkdown_tag_counterexample :
    cleanMarkdown "```javascript\n\x7b\x7d\n```".toList = "javascript\n\x7b\x7d".toList ∧
    cleanMarkdown "```JSON\n\x7b\x7d\n```".toList = "JSON\n\x7b\x7d".toList := by
  decide

/-! ## C7: extraction run twice -/

theorem Index_eq_none_iff_absent (s sep : List Char) :
    Index s sep = none ↔ ¬ sep <:+: s := by
  rw [Index_eq_none_iff, List.infix_iff_prefix_suffix]
  constructor
  · rintro h ⟨t, ht, hts⟩
    have := h t hts
    rw [List.isPrefixOf_iff_prefix.mpr ht] at this
    exact Bool.noConfusion this
  · intro h y hy
    apply Bool.eq_false_iff.mpr
    intro hp
    exact h ⟨y, List.isPrefixOf_iff_prefix.mp hp, hy⟩

theorem Index_none_of_infix {s y sep : List Char} (h : Index s sep = none)
    (hy : y <:+: s) : Index y sep = none :=
  (Index_eq_none_iff_absent y sep).mpr
    (fun hsep => (Index_eq_none_iff_absent s sep).mp h (hsep.trans hy))

/-- The text before the first marker holds no marker. -/
theorem Index_take_eq_none {r : List Char} {q : Nat} (h : Index r fence = some q) :
    Index (r.take q) fence = none := by
  induction r generalizing q with
  | nil => rw [Index_fence_nil] at h; exact Option.noConfusion h
  | cons c t ih =>
    rw [Index_cons] at h
    by_cases hf : fence.isPrefixOf (c :: t) = true
    · simp only [hf, if_true, Option.some.injEq] at h
      subst h
      exact Index_fence_nil
    · simp only [hf, Bool.false_eq_true, if_false, Option.map_eq_some'] at h
      obtain ⟨q', hq', rfl⟩ := h
      rw [List.take_succ_cons, Index_cons]
      have hf' : fence.isPrefixOf (c :: t.take q') = false := by
        apply Bool.eq_false_iff.mpr
        intro hp
        apply hf
        have h1 : fence <+: c :: t.take q' := List.isPrefixOf_iff_prefix.mp hp
        have h2 : c :: t.take q' <+: c :: t :=
          (List.prefix_cons_inj c).mpr (List.take_prefix q' t)
        exact List.isPrefixOf_iff_prefix.mpr (h1.trans h2)
      simp only [hf', Bool.false_eq_true, if_false, Option.map_eq_none']
      exact ih hq'

theorem TrimSpace_within (x : List Char) : TrimSpace x <:+: x :=
  (List.rdropWhile_prefix isSpace _).isInfix.trans (List.dropWhile_suffix isSpace).isInfix

/-- The candidate taken from a fenced block holds no marker. -/
theorem Index_cleanMarkdown_eq_none {s : List Char} (hf : hasFencedBlock s = true) :
    Index (cleanMarkdown s) fence = none := by
  unfold hasFencedBlock at hf
  cases hp : Index s fence with
  | none => rw [hp] at hf; exact Bool.noConfusion hf
  | some p =>
    rw [hp] at hf
    cases hq : Index (s.drop (p + 3)) fence with
    | none => simp only [hq, Option.isSome_none] at hf; exact Bool.noConfusion hf
    | some q =>
      rw [cleanMarkdown_of_markers hp hq, ← slice_drop]
      apply Index_none_of_infix (Index_take_eq_none hq)
      exact (TrimSpace_within _).trans (List.drop_suffix _ _).isInfix

theorem hasFencedBlock_of_Index_none {c : List Char} (h : Index c fence = none) :
    hasFencedBlock c = false := by
  simp [hasFencedBlock, h]

/-- C7, as the code has it. When the candidate extracted from a fenced block
starts with an opening brace and its brace depth, every brace counted, is back
to zero at its last character and not before (as for a JSON object with no
brace inside a string literal), running the extraction on the candidate gives
the candidate back. -/
theorem cleanMarkdown_idempotent (s : List Char)
    (hf : hasFencedBlock s = true)
    (hhead : (cleanMarkdown s).head? = some lbrace)
    (hz : braceDepth (cleanMarkdown s) = 0)
    (hmin : ∀ k, k < (cleanMarkdown s).length - 1 →
      braceDepth ((cleanMarkdown s).take (k + 1)) ≠ 0) :
    cleanMarkdown (cleanMarkdown s) = cleanMarkdown s := by
  have hnone := Index_cleanMarkdown_eq_none hf
  generalize cleanMarkdown s = c at hhead hz hmin hnone
  cases c with
  | nil => exact Option.noConfusion hhead
  | cons x t =>
    have hx : x = lbrace := by simpa using hhead
    subst hx
    have hs : Index (lbrace :: t) [lbrace] = some 0 := by
      simp [Index_cons, List.isPrefixOf]
    have hfull : slice (lbrace :: t) 0 (t.length + 1) = lbrace :: t := by
      simp [slice]
    have hres := cleanMarkdown_of_balanced (e := t.length)
      (hasFencedBlock_of_Index_none hnone) hs (Nat.zero_le _)
      (by simp) (by rw [hfull]; exact hz)
      (fun e' he' _ => by
        have := hmin e' (by simpa using he')
        simpa [slice] using this)
    rw [hfull] at hres
    exact hres.1

/-- C7 as amended, at the input of the specification. -/
theorem cleanMarkdown_idempotent_witness :
    cleanMarkdown (cleanMarkdown
        "Here is the result:\n```json\n\x7b\"answer\": \"ok\"\x7d\n```\nThanks.".toList) =
      cleanMarkdown
        "Here is the result:\n```json\n\x7b\"answer\": \"ok\"\x7d\n```\nThanks.".toList :=
  cleanMarkdown_idempotent _ (by decide) (by decide) (by decide) (by decide)

/-- C7 as stated fails: the fenced block holds the valid JSON object
`{"a": "}"}`, which is the candidate extracted; extraction run on that
candidate stops at the brace inside the string literal and yields `{"a": "}`. -/
theorem cleanMarkdown_idempotent_counterexample :
    hasFencedBlock "```json\n\x7b\"a\": \"\x7d\"\x7d\n```".toList = true ∧
    cleanMarkdown "```json\n\x7b\"a\": \"\x7d\"\x7d\n```".toList =
      "\x7b\"a\": \"\x7d\"\x7d".toList ∧
    cleanMarkdown (cleanMarkdown "```json\n\x7b\"a\": \"\x7d\"\x7d\n```".toList) =
      "\x7b\"a\": \"\x7d".toList ∧
    cleanMarkdown (cleanMarkdown "```json\n\x7b\"a\": \"\x7d\"\x7d\n```".toList) ≠
      cleanMarkdown "```json\n\x7b\"a\": \"\x7d\"\x7d\n```".toList := by
  decide

/-! ## C5 and C6: the failures of `Parse` -/

/-- C5, as the code has it. `Parse` has no failure of its own. For a content
with no fenced block that has no opening brace, or whose first opening brace
is never closed, it returns exactly what the base parser returns on the message
whose content is `strings.TrimSpace(content)`: a failure there is the error of
the base parser. Every message with the same role and tool calls whose
extracted candidate is that same text gets the same result, so the case
without candidate is not told apart from a candidate that does not decode. -/
theorem Parse_no_candidate {Ctx T E ToolCall Other : Type} [Inhabited T] [Inhabited Other]
    (baseParser : Ctx → Message ToolCall Other → T × Option E) (ctx : Ctx)
    (m : Message ToolCall Other)
    (hnf : hasFencedBlock m.Content = false)
    (h : Index m.Content [lbrace] = none ∨
      ∃ s, Index m.Content [lbrace] = some s ∧
        ∀ e, e < m.Content.length → s ≤ e →
          braceDepth (slice m.Content s (e + 1)) ≠ 0) :
    Parse baseParser ctx (some m) =
      baseParser ctx
        { Role := m.Role, Content := TrimSpace m.Content, ToolCalls := m.ToolCalls,
          Rest := default } ∧
    ∀ m' : Message ToolCall Other, m'.Role = m.Role → m'.ToolCalls = m.ToolCalls →
      cleanMarkdown m'.Content = TrimSpace m.Content →
      Parse baseParser ctx (some m') = Parse baseParser ctx (some m) := by
  have hc := cleanMarkdown_of_unclosed hnf h
  refine ⟨by simp only [Parse, hc], fun m' hr ht hm => ?_⟩
  simp only [Parse, hc, hr, ht, hm]

/-- C5 as amended, at the two inputs of the specification: each reaches the
base parser unchanged, and the same text inside a fenced block gets the same
result. -/
theorem Parse_no_candidate_witness :
    (Parse echoParser () (some ⟨"assistant", "no json here".toList, [], ()⟩) =
        ("no json here".toList, none) ∧
      Parse echoParser () (some ⟨"assistant", "```\nno json here\n```".toList, [], ()⟩) =
        Parse echoParser () (some ⟨"assistant", "no json here".toList, [], ()⟩)) ∧
    (Parse echoParser () (some ⟨"assistant", "\x7b\"answer\": \"partial\"".toList, [], ()⟩) =
        ("\x7b\"answer\": \"partial\"".toList, none) ∧
      Parse echoParser ()
          (some ⟨"assistant", "```\n\x7b\"answer\": \"partial\"\n```".toList, [], ()⟩) =
        Parse echoParser ()
          (some ⟨"assistant", "\x7b\"answer\": \"partial\"".toList, [], ()⟩)) :=
  ⟨⟨(Parse_no_candidate echoParser () ⟨"assistant", "no json here".toList, [], ()⟩
        (by decide) (Or.inl (by decide))).1.trans (by decide),
    (Parse_no_candidate echoParser () ⟨"assistant", "no json here".toList, [], ()⟩
        (by decide) (Or.inl (by decide))).2
        ⟨"assistant", "```\nno json here\n```".toList, [], ()⟩ rfl rfl (by decide)⟩,
   ⟨(Parse_no_candidate echoParser ()
        ⟨"assistant", "\x7b\"answer\": \"partial\"".toList, [], ()⟩
        (by decide) (Or.inr ⟨0, by decide, by decide⟩)).1.trans (by decide),
    (Parse_no_candidate echoParser ()
        ⟨"assistant", "\x7b\"answer\": \"partial\"".toList, [], ()⟩
        (by decide) (Or.inr ⟨0, by decide, by decide⟩)).2
        ⟨"assistant", "```\n\x7b\"answer\": \"partial\"\n```".toList, [], ()⟩
        rfl rfl (by decide)⟩⟩

/-- C5 as stated fails: no base parser lets a caller tell the message without
candidate from the message whose fenced candidate is the same text and does not
decode, nor the unclosed object from the fenced one: `Parse` returns the very
same result for each pair. -/
theorem Parse_failure_counterexample :
    ¬ ∃ (T E : Type) (_ : Inhabited T) (bp : Unit → Message Unit Unit → T × Option E),
      Parse bp () (some ⟨"assistant", "no json here".toList, [], ()⟩) ≠
        Parse bp () (some ⟨"assistant", "```\nno json here\n```".toList, [], ()⟩) ∨
      Parse bp () (some ⟨"assistant", "\x7b\"answer\": \"partial\"".toList, [], ()⟩) ≠
        Parse bp () (some ⟨"assistant", "```\n\x7b\"answer\": \"partial\"\n```".toList, [], ()⟩) := by
  rintro ⟨T, E, _, bp, h⟩
  have h1 : cleanMarkdown "```\nno json here\n```".toList =
      cleanMarkdown "no json here".toList := by decide
  have h2 : cleanMarkdown "```\n\x7b\"answer\": \"partial\"\n```".toList =
      cleanMarkdown "\x7b\"answer\": \"partial\"".toList := by decide
  rcases h with h | h
  · apply h
    simp only [Parse, h1]
  · apply h
    simp only [Parse, h2]

/-- C6, as the code has it. The empty content is cleaned to the empty
candidate and handed to the base parser, whose result `Parse` returns; the zero
value with a nil error, without decoding, is the result for the nil message
only. -/
theorem Parse_empty {Ctx T E ToolCall Other : Type} [Inhabited T] [Inhabited Other]
    (baseParser : Ctx → Message ToolCall Other → T × Option E) (ctx : Ctx)
    (role : String) (toolCalls : List ToolCall) (rest : Other) :
    cleanMarkdown [] = [] ∧
    Parse baseParser ctx (some ⟨role, [], toolCalls, rest⟩) =
      baseParser ctx ⟨role, [], toolCalls, default⟩ ∧
    Parse baseParser ctx none = (default, none) := by
  have h : cleanMarkdown [] = [] := by decide
  exact ⟨h, by simp only [Parse, h], rfl⟩

/-- C6 as stated fails: with a base parser that, like a JSON decoder, rejects
the empty document, `Parse` on a message with empty content returns that
error, not a nil error. -/
theorem Parse_empty_counterexample :
    Parse answerParser () (some ⟨"assistant", [], [], ()⟩) =
      ([], some "failed to unmarshal content") ∧
    Parse answerParser () (some ⟨"assistant", [], [], ()⟩) ≠ (default, none) := by
  decide

/-! ## C8, C9 and C10: the error helpers -/

/-- C8, as the code has it. For a non-nil `err` whose `Error()` returns the
string `s`: when the first code passed is not the empty string, `Wrap` returns
the `CustomError` with that code; with no code, or with an empty first code,
it returns the `CustomError` with the code of the non-nil `CustomError` that
`errors.As` finds in `err` (`err` itself, one it wraps, or one an `As` method
supplies), and with `InternalError` when `errors.As` finds none. -/
theorem Wrap_code (e : GoError) (s message : String) (code : List ErrorCode)
    (hs : e.Error = some s) :
    (∀ c cs, code = c :: cs → c ≠ "" →
      Wrap (some e) message code =
        some (some (.custom (some ⟨c, message ++ ": " ++ s⟩)))) ∧
    (code = [] ∨ code.head? = some "" →
      (∀ inner, asCustom e = some (some inner) →
        Wrap (some e) message code =
          some (some (.custom (some ⟨inner.Code, message ++ ": " ++ s⟩)))) ∧
      (asCustom e = none →
        Wrap (some e) message code =
          some (some (.custom (some ⟨InternalError, message ++ ": " ++ s⟩))))) := by
  constructor
  · rintro c cs rfl hc
    simp [Wrap, hc, hs]
  · intro hcode
    have hfinal : Wrap (some e) message code =
        match preservedCode e with
        | none => none
        | some fc => some (some (.custom (some ⟨fc, message ++ ": " ++ s⟩))) := by
      rcases hcode with rfl | hcode
      · simp only [Wrap, hs]
      · cases code with
        | nil => simp only [Wrap, hs]
        | cons c cs =>
          have hc : c = "" := by simpa using hcode
          subst hc
          simp only [Wrap, hs, ne_eq, not_true_eq_false, if_false]
    refine ⟨fun inner hin => ?_, fun hnone => ?_⟩
    · rw [hfinal]; simp only [preservedCode, hin]
    · rw [hfinal]; simp only [preservedCode, hnone]

/-- C8 as amended, on concrete errors: a passed code wins, the code of a
`CustomError` is preserved, and a plain error gets `InternalError`. -/
theorem Wrap_code_witness :
    Wrap (some (.plain (some "boom"))) "ctx" [NotFound] =
      some (some (.custom (some ⟨"0404", "ctx: boom"⟩))) ∧
    Wrap (some (.custom (some ⟨NotFound, "nf"⟩))) "ctx" [] =
      some (some (.custom (some ⟨"0404", "ctx: nf"⟩))) ∧
    Wrap (some (.plain (some "boom"))) "ctx" [] =
      some (some (.custom (some ⟨"0500", "ctx: boom"⟩))) :=
  ⟨(Wrap_code (.plain (some "boom")) "boom" "ctx" [NotFound] rfl).1 NotFound [] rfl (by decide),
   ((Wrap_code (.custom (some ⟨NotFound, "nf"⟩)) "nf" "ctx" [] rfl).2 (Or.inl rfl)).1
      ⟨NotFound, "nf"⟩ rfl,
   ((Wrap_code (.plain (some "boom")) "boom" "ctx" [] rfl).2 (Or.inl rfl)).2 rfl⟩

/-- C8 as stated fails twice: an empty code that is passed is not the code of
the result, and an error that is not a `CustomError` but wraps one does not get
`InternalError`. -/
theorem Wrap_code_counterexample :
    Wrap (some (.plain (some "boom"))) "ctx" [""] =
      some (some (.custom (some ⟨"0500", "ctx: boom"⟩))) ∧
    Wrap (some (.wrap (some "outer: nf") (.custom (some ⟨NotFound, "nf"⟩)))) "ctx" [] =
      some (some (.custom (some ⟨"0404", "ctx: outer: nf"⟩))) :=
  ⟨rfl, rfl⟩

/-- C9, as the code has it. `Wrap` returns nil exactly when `err` is nil,
whatever the message and the codes. For a non-nil `err` whose `Error()` returns
the string `s`, when a first code that is not empty is passed or `errors.As`
does not come back with a nil pointer, `Wrap` returns a `CustomError` whose
`Error()` is the message, a colon and a blank, and `s`; `New` with the same
message and `err` returns and builds the same message; and `New` with a nil
error returns and keeps the message alone. -/
theorem Wrap_nil_and_message :
    (∀ (err : Option GoError) (message : String) (code : List ErrorCode),
      Wrap err message code = some none ↔ err = none) ∧
    (∀ (e : GoError) (s message : String) (code : List ErrorCode),
      e.Error = some s →
      ((∃ c cs, code = c :: cs ∧ c ≠ "") ∨ asCustom e ≠ some none) →
      ∃ ce, Wrap (some e) message code = some (some (.custom (some ce))) ∧
        ce.Error = message ++ ": " ++ s ∧
        ∀ c, ∃ ne, New c message (some e) = some ne ∧ ne.Error = ce.Error) ∧
    (∀ (c : ErrorCode) (message : String),
      ∃ ne, New c message none = some ne ∧ ne.Error = message) := by
  refine ⟨?_, ?_, ?_⟩
  · intro err message code
    cases err with
    | none => simp [Wrap]
    | some e =>
      simp only [Wrap, reduceCtorEq, iff_false]
      split
      · exact fun h => Option.noConfusion h
      · split
        · intro h
          exact Option.noConfusion (Option.some.inj h)
        · exact fun h => Option.noConfusion h
  · intro e s message code hs hcode
    have hnew : ∀ c, ∃ ne, New c message (some e) = some ne ∧
        ne.Error = message ++ ": " ++ s :=
      fun c => ⟨⟨c, message ++ ": " ++ s⟩, by simp [New, hs], rfl⟩
    rcases hcode with ⟨c, cs, rfl, hc⟩ | has
    · exact ⟨⟨c, message ++ ": " ++ s⟩, by simp [Wrap, hc, hs], rfl, hnew⟩
    · have hp : ∃ fc, preservedCode e = some fc := by
        unfold preservedCode
        cases h : asCustom e with
        | none => exact ⟨_, rfl⟩
        | some p =>
          cases p with
          | none => exact absurd h has
          | some ce => exact ⟨_, rfl⟩
      obtain ⟨fc, hfc⟩ := hp
      cases code with
      | nil => exact ⟨⟨fc, message ++ ": " ++ s⟩, by simp [Wrap, hfc, hs], rfl, hnew⟩
      | cons c cs =>
        by_cases hc : c = ""
        · subst hc
          exact ⟨⟨fc, message ++ ": " ++ s⟩, by simp [Wrap, hfc, hs], rfl, hnew⟩
        · exact ⟨⟨c, message ++ ": " ++ s⟩, by simp [Wrap, hc, hs], rfl, hnew⟩
  · intro c message
    exact ⟨⟨c, message⟩, rfl, rfl⟩

/-- C9 as amended, on concrete errors: a plain error with and without a
code. -/
theorem Wrap_nil_and_message_witness :
    (∃ ce, Wrap (some (.plain (some "boom"))) "ctx" [] = some (some (.custom (some ce))) ∧
      ce.Error = "ctx: boom") ∧
    (∃ ce, Wrap (some (.wrap (some "outer: <nil>") (.custom none))) "ctx" [NotFound] =
        some (some (.custom (some ce))) ∧
      ce.Error = "ctx: outer: <nil>") := by
  obtain ⟨ce₁, h₁, e₁, _⟩ := Wrap_nil_and_message.2.1 (.plain (some "boom")) "boom" "ctx" []
    rfl (Or.inr (by decide))
  obtain ⟨ce₂, h₂, e₂, _⟩ := Wrap_nil_and_message.2.1
    (.wrap (some "outer: <nil>") (.custom none)) "outer: <nil>" "ctx" [NotFound]
    rfl (Or.inl ⟨NotFound, [], rfl, by decide⟩)
  exact ⟨⟨ce₁, h₁, e₁⟩, ⟨ce₂, h₂, e₂⟩⟩

/-- C9 as stated fails: for a non-nil `err` that holds the nil `*CustomError`
`Wrap` and `New` panic in `err.Error()`, and for a non-nil `err` that wraps the
nil `*CustomError` `Wrap` without a code panics in `customErr.Code`; no
`CustomError` is returned. -/
theorem Wrap_panic_counterexample :
    Wrap (some (.custom none)) "ctx" [NotFound] = none ∧
    New NotFound "ctx" (some (.custom none)) = none ∧
    Wrap (some (.wrap (some "outer: <nil>") (.custom none))) "ctx" [] = none :=
  ⟨rfl, rfl, rfl⟩

/-- C10, as the code has it. `New` returns for a nil cause and for a cause
whose `Error()` returns, and `GetCode` of the error it builds is the code
passed to `New`. `GetCode` is `UnknownError` for nil and for every error in
which `errors.As` finds no `CustomError` (so for every error of another type
with neither `Unwrap` nor an `As` method); when `errors.As` finds a non-nil
`CustomError` (one that is wrapped, or one an `As` method supplies) it is the
code of that one. Whenever `GetCode` returns, `HasCode` returns, and it holds
exactly when `GetCode` gives the code asked for. -/
theorem GetCode_spec :
    (∀ (c : ErrorCode) (m : String) (e : Option GoError),
      (e = none ∨ ∃ x s, e = some x ∧ x.Error = some s) →
      ∃ ne, New c m e = some ne ∧ GetCode (some (.custom (some ne))) = some c) ∧
    GetCode none = some UnknownError ∧
    (∀ e : GoError, asCustom e = none → GetCode (some e) = some UnknownError) ∧
    (∀ m : Option String, GetCode (some (.plain m)) = some UnknownError) ∧
    (∀ (e : GoError) (ce : CustomError), asCustom e = some (some ce) →
      GetCode (some e) = some ce.Code) ∧
    (∀ (err : Option GoError) (c g : ErrorCode), GetCode err = some g →
      ∃ b, HasCode err c = some b ∧ (b = true ↔ g = c)) := by
  refine ⟨fun c m e h => ?_, rfl, fun e h => ?_, fun m => rfl, fun e ce h => ?_,
    fun err c g h => ?_⟩
  · rcases h with rfl | ⟨x, s, rfl, hs⟩
    · exact ⟨⟨c, m⟩, rfl, rfl⟩
    · exact ⟨⟨c, m ++ ": " ++ s⟩, by simp [New, hs], rfl⟩
  · simp [GetCode, h]
  · simp [GetCode, h]
  · exact ⟨g == c, by simp [HasCode, h], by simp⟩

/-- C10 as amended, on concrete errors: `New` with a cause, a joined pair of
plain errors, and an error whose `As` method supplies a `CustomError`. -/
theorem GetCode_spec_witness :
    (∃ ne, New NotFound "nf" (some (.plain (some "boom"))) = some ne ∧
      GetCode (some (.custom (some ne))) = some "0404") ∧
    GetCode (some (.join (some "a\nb") [.plain (some "a"), .plain (some "b")])) = some "0000" ∧
    GetCode (some (.withAs (some "x") (some (some ⟨InvalidParameter, "bad"⟩)) [])) =
      some "0400" :=
  ⟨GetCode_spec.1 NotFound "nf" (some (.plain (some "boom")))
      (Or.inr ⟨_, "boom", rfl, rfl⟩),
   GetCode_spec.2.2.1 _ (by decide),
   GetCode_spec.2.2.2.2.1 _ ⟨InvalidParameter, "bad"⟩ (by decide)⟩

/-- C10 as stated fails: an error of another type that wraps a `CustomError`
is not a `CustomError`, yet `GetCode` returns the wrapped code, not
`UnknownError`. -/
theorem GetCode_counterexample :
    GetCode (some (.wrap (some "outer: nf") (.custom (some ⟨NotFound, "nf"⟩)))) = some "0404" ∧
    GetCode (some (.wrap (some "outer: nf") (.custom (some ⟨NotFound, "nf"⟩)))) ≠
      some UnknownError := by
  decide

/-! ## C11: the IDs of `FormatID` -/

theorem toUint64_lt (v : Int) : toUint64 v < 2 ^ 64 := by
  unfold toUint64
  have h1 : (0 : Int) ≤ v % 2 ^ 64 := Int.emod_nonneg _ (by norm_num)
  have h2 : v % 2 ^ 64 < 2 ^ 64 := Int.emod_lt_of_pos _ (by norm_num)
  omega

theorem mixID_lt (timestamp counter : Int) : mixID timestamp counter < 2 ^ 64 := by
  unfold mixID
  exact Nat.xor_lt_two_pow
    (Nat.xor_lt_two_pow (Nat.mod_lt _ (by norm_num)) (toUint64_lt _)) (toUint64_lt _)

theorem formatLoop_isSome (i x : Nat) (acc : List Char) (h : x < 36 ^ i) :
    (formatLoop i x acc).isSome = true := by
  induction i generalizing x acc with
  | zero =>
    have hx : x = 0 := by simpa using h
    subst hx
    simp [formatLoop]
  | succ i ih =>
    unfold formatLoop
    by_cases hx : x > 0
    · simp only [hx, if_true]
      apply ih
      rw [Nat.div_lt_iff_lt_mul (by norm_num)]
      rw [pow_succ] at h
      exact h
    · simp [hx]

/-- The buffer of 32 bytes is never overrun: `FormatID` returns for every pair
of arguments. -/
theorem FormatID_isSome (timestamp counter : Int) :
    (FormatID timestamp counter).isSome = true := by
  unfold FormatID
  apply formatLoop_isSome
  exact lt_trans (mixID_lt timestamp counter) (by norm_num)

/-- C11 fails on the code. Different pairs of timestamp and counter get the
same ID whenever the mixed value `x` is the same: the pairs (1, 0) and
(0, 8192) both give "6bk", and the pairs (0, 0) and (1, 8192) both give the
empty ID. -/
theorem FormatID_collision :
    FormatID 1 0 = some "6bk".toList ∧ FormatID 0 8192 = some "6bk".toList ∧
    FormatID 0 0 = some [] ∧ FormatID 1 8192 = some [] ∧
    GenerateID 1 0 = GenerateID 0 8192 ∧ ((1 : Int), (0 : Int)) ≠ (0, 8192) := by
  decide

/-! ## C12: random IDs -/

theorem encodeAt_mem (val shift : Nat) : encodeAt val shift ∈ encodeURL :=
  List.get_mem _ _ _

theorem padChar_not_mem : padChar ∉ encodeURL := by decide

/-- The first `n` characters of the encoding of at least `n` bytes exist and
are characters of the alphabet: the padding comes after them. -/
theorem EncodeToString_take (bytes : List Nat) :
    ∀ n, n ≤ bytes.length →
      n ≤ (EncodeToString bytes).length ∧
        ∀ c ∈ (EncodeToString bytes).take n, c ∈ encodeURL := by
  induction bytes using EncodeToString.induct with
  | case1 b₀ b₁ b₂ rest ih =>
    intro n hn
    simp only [List.length_cons] at hn
    simp only [EncodeToString, List.length_cons]
    have ih' := ih (n - 4) (by omega)
    refine ⟨by omega, ?_⟩
    intro c hc
    match n, hc with
    | 0, hc => simp at hc
    | 1, hc =>
      simp only [List.take_succ_cons, List.take_zero, List.mem_singleton] at hc
      subst hc; exact encodeAt_mem _ _
    | 2, hc =>
      simp only [List.take_succ_cons, List.take_zero, List.mem_cons, List.mem_singleton,
        List.not_mem_nil, or_false] at hc
      rcases hc with rfl | rfl <;> exact encodeAt_mem _ _
    | 3, hc =>
      simp only [List.take_succ_cons, List.take_zero, List.mem_cons,
        List.not_mem_nil, or_false] at hc
      rcases hc with rfl | rfl | rfl <;> exact encodeAt_mem _ _
    | k + 4, hc =>
      simp only [List.take_succ_cons, List.mem_cons] at hc
      rcases hc with rfl | rfl | rfl | rfl | hc
      · exact encodeAt_mem _ _
      · exact encodeAt_mem _ _
      · exact encodeAt_mem _ _
      · exact encodeAt_mem _ _
      · exact ih'.2 c (by simpa using hc)
  | case2 b₀ b₁ =>
    intro n hn
    simp only [List.length_cons, List.length_nil] at hn
    simp only [EncodeToString, List.length_cons, List.length_nil]
    refine ⟨by omega, ?_⟩
    intro c hc
    match n, hn, hc with
    | 0, _, hc => simp at hc
    | 1, _, hc =>
      simp only [List.take_succ_cons, List.take_zero, List.mem_singleton] at hc
      subst hc; exact encodeAt_mem _ _
    | 2, _, hc =>
      simp only [List.take_succ_cons, List.take_zero, List.mem_cons, List.mem_singleton,
        List.not_mem_nil, or_false] at hc
      rcases hc with rfl | rfl <;> exact encodeAt_mem _ _
    | k + 3, hn, _ => omega
  | case3 b₀ =>
    intro n hn
    simp only [List.length_cons, List.length_nil] at hn
    simp only [EncodeToString, List.length_cons, List.length_nil]
    refine ⟨by omega, ?_⟩
    intro c hc
    match n, hn, hc with
    | 0, _, hc => simp at hc
    | 1, _, hc =>
      simp only [List.take_succ_cons, List.take_zero, List.mem_singleton] at hc
      subst hc; exact encodeAt_mem _ _
    | k + 2, hn, _ => omega
  | case4 =>
    intro n hn
    have : n = 0 := by simpa using hn
    subst this
    simp [EncodeToString]

/-- C12. `GenerateRandomID` returns the empty string and an error for every
length that is not positive. For a positive length and the `length` bytes
delivered by the random source it returns no error, the slice `[:length]` of
the URL-safe base64 encoding is in range, and the ID has exactly `length`
characters, each one from the URL-safe alphabet and none the padding
character. -/
theorem GenerateRandomID_spec :
    (∀ (length : Int) (read : Except String (List Nat)), length ≤ 0 →
      ∃ err, GenerateRandomID length read = some ([], some err)) ∧
    (∀ (length : Int) (bytes : List Nat), 0 < length → (bytes.length : Int) = length →
      ∃ id, GenerateRandomID length (.ok bytes) = some (id, none) ∧
        (id.length : Int) = length ∧ id = (EncodeToString bytes).take bytes.length ∧
        ∀ c ∈ id, c ∈ encodeURL ∧ c ≠ padChar) := by
  constructor
  · intro length read h
    exact ⟨"length must be positive", by simp [GenerateRandomID, h]⟩
  · intro length bytes hpos hlen
    have hn : length.toNat = bytes.length := by omega
    obtain ⟨h1, h2⟩ := EncodeToString_take bytes bytes.length le_rfl
    refine ⟨(EncodeToString bytes).take bytes.length, ?_, ?_, rfl, ?_⟩
    · have hnot : ¬ length ≤ 0 := by omega
      simp only [GenerateRandomID, hnot, if_false, hn, h1, if_true]
    · rw [List.length_take, Nat.min_eq_left h1]
      exact hlen
    · intro c hc
      have hmem := h2 c hc
      exact ⟨hmem, fun heq => padChar_not_mem (heq ▸ hmem)⟩

/-- C12, on concrete inputs: length zero is refused, and five bytes give an ID
of five characters, cut from an encoding that ends in padding. -/
theorem GenerateRandomID_spec_witness :
    (∃ err, GenerateRandomID 0 (.ok []) = some ([], some err)) ∧
    (∃ id, GenerateRandomID 5 (.ok [251, 255, 190, 0, 77]) = some (id, none) ∧
      (id.length : Int) = 5 ∧
      id = (EncodeToString [251, 255, 190, 0, 77]).take 5 ∧
      ∀ c ∈ id, c ∈ encodeURL ∧ c ≠ padChar) :=
  ⟨GenerateRandomID_spec.1 0 (.ok []) (by decide),
   GenerateRandomID_spec.2 5 [251, 255, 190, 0, 77] (by decide) (by decide)⟩

/-! ## C13: `Parse` cleans, delegates, and writes nothing itself -/

theorem Memory.alloc_fst {ToolCall Other S : Type} (mem : Memory ToolCall Other S)
    (c : MessageCell Other) : (mem.alloc c).1 = mem.cells.length := rfl

theorem Memory.alloc_arrays {ToolCall Other S : Type} (mem : Memory ToolCall Other S)
    (c : MessageCell Other) : (mem.alloc c).2.arrays = mem.arrays := rfl

theorem Memory.alloc_world {ToolCall Other S : Type} (mem : Memory ToolCall Other S)
    (c : MessageCell Other) : (mem.alloc c).2.world = mem.world := rfl

theorem Memory.alloc_old {ToolCall Other S : Type} (mem : Memory ToolCall Other S)
    (c m : MessageCell Other) (a : Nat) (h : mem.cells[a]? = some m) :
    (mem.alloc c).2.cells[a]? = some m := by
  have ha : a < mem.cells.length := by
    by_contra hge
    rw [List.getElem?_eq_none (Nat.le_of_not_lt hge)] at h
    exact Option.noConfusion h
  show (mem.cells ++ [c])[a]? = some m
  rw [List.getElem?_append_left ha]
  exact h

theorem Memory.alloc_new {ToolCall Other S : Type} (mem : Memory ToolCall Other S)
    (c : MessageCell Other) : (mem.alloc c).2.cells[mem.cells.length]? = some c := by
  show (mem.cells ++ [c])[mem.cells.length]? = some c
  simp

theorem Memory.alloc_message {ToolCall Other S : Type} (mem : Memory ToolCall Other S)
    (c m : MessageCell Other) (a : Nat) (h : mem.cells[a]? = some m) :
    (mem.alloc c).2.message a = mem.message a := by
  simp only [Memory.message, Memory.alloc_old mem c m a h, h, Memory.alloc_arrays]

theorem ParseM_some {Ctx T E S ToolCall Other : Type} [Inhabited T] [Inhabited Other]
    (baseParser : Ctx → Nat → Memory ToolCall Other S →
      (T × Option E) × Memory ToolCall Other S)
    (ctx : Ctx) (mem : Memory ToolCall Other S) (a : Nat) (m : MessageCell Other)
    (h : mem.cells[a]? = some m) :
    ParseM baseParser ctx (some a) mem =
      some (baseParser ctx mem.cells.length (mem.alloc (cleanedCell m)).2) := by
  simp only [ParseM, h]
  rfl

theorem message_cleanedCell {ToolCall Other S : Type} [Inhabited Other]
    (mem : Memory ToolCall Other S) (a : Nat) (m : MessageCell Other)
    (h : mem.cells[a]? = some m) :
    (mem.alloc (cleanedCell m)).2.message mem.cells.length =
      (mem.message a).map fun x =>
        { Role := x.Role, Content := cleanMarkdown x.Content, ToolCalls := x.ToolCalls,
          Rest := default } := by
  simp only [Memory.message, Memory.alloc_new, h, Memory.alloc_arrays, Option.map_some',
    cleanedCell]

/-- C13, as the code has it. For the nil pointer `Parse` returns the zero value
and a nil error and leaves the memory as it is, whatever the base parser would
do: the base parser is not called. For a pointer `a` to a message `m`, `Parse`
itself writes to nothing that exists: it allocates the fresh message (role and
tool-call slice of `m`, cleaned content, other fields zero; every old struct,
every array and the rest of the memory as before) and returns exactly what the
base parser returns on it, with the memory the base parser leaves. So the
message behind `a` is unchanged whenever the call of the base parser leaves it
unchanged; two messages of the same memory with the same role, the same
tool-call slice and equal cleaned content get the same result; and with a base
parser that only reads its argument the result is the one of the function
`Parse` on the message behind `a`, which stays as it was. -/
theorem ParseM_frame {Ctx T E S ToolCall Other : Type} [Inhabited T] [Inhabited Other]
    (baseParser : Ctx → Nat → Memory ToolCall Other S →
      (T × Option E) × Memory ToolCall Other S)
    (ctx : Ctx) (mem : Memory ToolCall Other S) :
    ParseM baseParser ctx none mem = some ((default, none), mem) ∧
    (∀ (a : Nat) (m : MessageCell Other), mem.cells[a]? = some m →
      ParseM baseParser ctx (some a) mem =
        some (baseParser ctx mem.cells.length (mem.alloc (cleanedCell m)).2) ∧
      (mem.alloc (cleanedCell m)).2.cells[mem.cells.length]? = some (cleanedCell m) ∧
      (∀ (b : Nat) (c : MessageCell Other), mem.cells[b]? = some c →
        (mem.alloc (cleanedCell m)).2.cells[b]? = some c) ∧
      (mem.alloc (cleanedCell m)).2.arrays = mem.arrays ∧
      (mem.alloc (cleanedCell m)).2.world = mem.world) ∧
    (∀ (a : Nat) (m : MessageCell Other), mem.cells[a]? = some m →
      (baseParser ctx mem.cells.length (mem.alloc (cleanedCell m)).2).2.message a =
        (mem.alloc (cleanedCell m)).2.message a →
      ∃ r mem', ParseM baseParser ctx (some a) mem = some (r, mem') ∧
        mem'.message a = mem.message a) ∧
    (∀ (a a' : Nat) (m m' : MessageCell Other),
      mem.cells[a]? = some m → mem.cells[a']? = some m' →
      m.Role = m'.Role → m.ToolCalls = m'.ToolCalls →
      cleanMarkdown m.Content = cleanMarkdown m'.Content →
      ParseM baseParser ctx (some a) mem = ParseM baseParser ctx (some a') mem) ∧
    (∀ (f : Ctx → Message ToolCall Other → T × Option E) (a : Nat) (m : MessageCell Other),
      mem.cells[a]? = some m →
      ∃ mem', ParseM (readOnlyParser f) ctx (some a) mem =
          some (Parse f ctx (mem.message a), mem') ∧
        mem'.message a = mem.message a) := by
  refine ⟨rfl, fun a m h => ?_, fun a m h hb => ?_, fun a a' m m' h h' hr ht hc => ?_,
    fun f a m h => ?_⟩
  · exact ⟨ParseM_some baseParser ctx mem a m h, Memory.alloc_new mem _,
      fun b c hbc => Memory.alloc_old mem _ c b hbc, rfl, rfl⟩
  · refine ⟨_, _, ParseM_some baseParser ctx mem a m h, ?_⟩
    rw [hb]
    exact Memory.alloc_message mem _ m a h
  · rw [ParseM_some baseParser ctx mem a m h, ParseM_some baseParser ctx mem a' m' h']
    have : cleanedCell m = cleanedCell m' := by
      simp only [cleanedCell, hr, ht, hc]
    rw [this]
  · refine ⟨(mem.alloc (cleanedCell m)).2, ?_, Memory.alloc_message mem _ m a h⟩
    rw [ParseM_some (readOnlyParser f) ctx mem a m h]
    simp only [readOnlyParser, message_cleanedCell mem a m h]
    have hm : mem.message a = some
        { Role := m.Role, Content := m.Content,
          ToolCalls :=
            match m.ToolCalls with
            | none => []
            | some r => (mem.arrays[r]?).getD [],
          Rest := m.Rest } := by
      simp only [Memory.message, h, Option.map_some']
    rw [hm]
    rfl

/-- C13 as amended, on a memory with one message and a base parser that only
reads: the message is handed over cleaned, and is unchanged afterwards. -/
theorem ParseM_frame_witness :
    ∃ r mem',
      ParseM (readOnlyParser fun _ (x : Message String Unit) =>
          (x.Content, (none : Option String))) () (some 0) sampleMemory = some (r, mem') ∧
        mem'.message 0 = sampleMemory.message 0 :=
  (ParseM_frame (readOnlyParser fun _ (x : Message String Unit) =>
      (x.Content, (none : Option String))) () sampleMemory).2.2.1 0
    ⟨"assistant", "no json here".toList, some 0, ()⟩ rfl rfl

/-- C13 as stated fails: the fresh message shares the backing array of the tool
calls with the message behind `msg`, so after `Parse` with a base parser that
writes to the tool calls it is handed, the message behind `msg` holds other
tool calls than before. -/
theorem ParseM_frame_counterexample :
    sampleMemory.message 0 =
      some ⟨"assistant", "no json here".toList, ["get_weather"], ()⟩ ∧
    (ParseM tamperParser () (some 0) sampleMemory).map (fun r => r.2.message 0) =
      some (some ⟨"assistant", "no json here".toList, ["tampered"], ()⟩) :=
  ⟨rfl, rfl⟩

end SimpleMCP
